import Mathlib

/-!
Verification development for the directory-analytics toolkit in fmgr.py.

The Python source is shallowly embedded: paths and extension keys are lists
of characters, file sizes are naturals, the file system (directory scans,
image decoding, archive measurement) is passed in as explicit data, and
stateful operations (the extension-index cache, the transient zip artifact)
are modelled by explicit state passing.  Operations that can raise a Python
exception return Except/Option values, with the error constructor standing
for the raised exception.

Percentages: Python computes round(x, 2), which rounds half to even.  We
model the stored value exactly as an integer count of hundredths computed by
rheN (round-half-even of a quotient of naturals); the rational percentage a
record carries is that integer divided by 100.  This is the exact-rational
model of the float computation.
-/

/-- Characters of a path, file name or extension key. -/
abbrev Str := List Char

/-- Round-half-even of the quotient a / b of two naturals (b expected
nonzero), as an integer.  This is the value Python's round() produces on the
exact rational a / b. -/
def rheN (a b : Nat) : ℤ :=
  if 2 * (a % b) < b then ((a / b : Nat) : ℤ)
  else if b < 2 * (a % b) then ((a / b : Nat) : ℤ) + 1
  else if (a / b) % 2 = 0 then ((a / b : Nat) : ℤ) else ((a / b : Nat) : ℤ) + 1

/-- Round-half-even of the quotient a / b where the numerator is an integer
(used for the signed size-reduction ratio in the jpg report). -/
def rheZ (a : ℤ) (b : Nat) : ℤ :=
  if 2 * (a.emod b) < (b : ℤ) then a.ediv b
  else if (b : ℤ) < 2 * (a.emod b) then a.ediv b + 1
  else if (a.ediv b) % 2 = 0 then a.ediv b else a.ediv b + 1

/-- Round-half-even of a rational to an integer, stated with the floor
function; used only to phrase specifications. -/
def rheQ (q : ℚ) : ℤ :=
  if Int.fract q < 1/2 then ⌊q⌋
  else if 1/2 < Int.fract q then ⌊q⌋ + 1
  else if ⌊q⌋ % 2 = 0 then ⌊q⌋ else ⌊q⌋ + 1

/-- Python's round(x, 2) on an exact rational: round half to even at two
decimal places. -/
def round2 (q : ℚ) : ℚ := ((rheQ (q * 100) : ℤ) : ℚ) / 100

theorem rheN_spec (a b : Nat) (hb : b ≠ 0) :
    |((rheN a b : ℤ) : ℚ) - (a : ℚ) / b| ≤ 1/2 := by
  have hbpos : 0 < b := Nat.pos_of_ne_zero hb
  have hb0 : (0:ℚ) < (b:ℚ) := by exact_mod_cast hbpos
  have hmod : b * (a / b) + a % b = a := Nat.div_add_mod a b
  have hrb : a % b < b := Nat.mod_lt a hbpos
  have hcast : (a:ℚ) = (b:ℚ) * ((a / b : Nat) : ℚ) + ((a % b : Nat) : ℚ) := by
    exact_mod_cast (congrArg (fun n => ((n : Nat) : ℚ)) hmod).symm
  have hx : (a:ℚ)/b = ((a / b : Nat) : ℚ) + ((a % b : Nat) : ℚ) / b := by
    rw [hcast]; field_simp; ring
  have hfr0 : (0:ℚ) ≤ ((a % b : Nat) : ℚ) / b := by positivity
  have hfr1 : ((a % b : Nat) : ℚ) / b < 1 := by
    rw [div_lt_one hb0]; exact_mod_cast hrb
  rw [hx, rheN]
  by_cases h1 : 2 * (a % b) < b
  · rw [if_pos h1]
    have hlt : 2 * ((a % b : Nat) : ℚ) < (b:ℚ) := by exact_mod_cast h1
    have he : ((((a / b : Nat) : ℤ)) : ℚ)
        - (((a / b : Nat) : ℚ) + ((a % b : Nat) : ℚ) / b)
        = -(((a % b : Nat) : ℚ) / b) := by
      simp only [Int.cast_natCast]; ring
    rw [he, abs_neg, abs_of_nonneg hfr0, div_le_iff₀ hb0]
    linarith
  · rw [if_neg h1]
    by_cases h2 : b < 2 * (a % b)
    · rw [if_pos h2]
      have hlt : (b:ℚ) < 2 * ((a % b : Nat) : ℚ) := by exact_mod_cast h2
      have he : (((((a / b : Nat) : ℤ)) + 1 : ℤ) : ℚ)
          - (((a / b : Nat) : ℚ) + ((a % b : Nat) : ℚ) / b)
          = 1 - ((a % b : Nat) : ℚ) / b := by
        simp only [Int.cast_add, Int.cast_natCast, Int.cast_one]; ring
      rw [he, abs_of_nonneg (by linarith)]
      have hhalf : 1/2 ≤ ((a % b : Nat) : ℚ) / b := by
        rw [le_div_iff₀ hb0]; linarith
      linarith
    · have heq : 2 * (a % b) = b := by omega
      have hrnz : a % b ≠ 0 := by omega
      have hrpos : (0:ℚ) < ((a % b : Nat) : ℚ) := by
        exact_mod_cast Nat.pos_of_ne_zero hrnz
      have h2r : (b:ℚ) = 2 * ((a % b : Nat) : ℚ) := by exact_mod_cast heq.symm
      have heqq : ((a % b : Nat) : ℚ) / b = 1/2 := by
        rw [h2r, div_eq_iff (by linarith)]; ring
      rw [if_neg h2]
      by_cases h3 : (a / b) % 2 = 0
      · rw [if_pos h3]
        have he : ((((a / b : Nat) : ℤ)) : ℚ)
            - (((a / b : Nat) : ℚ) + ((a % b : Nat) : ℚ) / b)
            = -(((a % b : Nat) : ℚ) / b) := by
          simp only [Int.cast_natCast]; ring
        rw [he, abs_neg, abs_of_nonneg hfr0, heqq]
      · rw [if_neg h3]
        have he : (((((a / b : Nat) : ℤ)) + 1 : ℤ) : ℚ)
            - (((a / b : Nat) : ℚ) + ((a % b : Nat) : ℚ) / b)
            = 1 - ((a % b : Nat) : ℚ) / b := by
          simp only [Int.cast_add, Int.cast_natCast, Int.cast_one]; ring
        rw [he, heqq]
        have hv : (1:ℚ) - 1/2 = 1/2 := by norm_num
        rw [hv, abs_of_nonneg (by norm_num)]

theorem rheN_eq_rheQ (a b : Nat) (hb : b ≠ 0) :
    rheN a b = rheQ ((a : ℚ) / b) := by
  have hbpos : 0 < b := Nat.pos_of_ne_zero hb
  have hb0 : (0:ℚ) < (b:ℚ) := by exact_mod_cast hbpos
  have hmod : b * (a / b) + a % b = a := Nat.div_add_mod a b
  have hrb : a % b < b := Nat.mod_lt a hbpos
  have hcast : (a:ℚ) = (b:ℚ) * ((a / b : Nat) : ℚ) + ((a % b : Nat) : ℚ) := by
    exact_mod_cast (congrArg (fun n => ((n : Nat) : ℚ)) hmod).symm
  have hx : (a:ℚ)/b = ((a / b : Nat) : ℚ) + ((a % b : Nat) : ℚ) / b := by
    rw [hcast]; field_simp; ring
  have hfr0 : (0:ℚ) ≤ ((a % b : Nat) : ℚ) / b := by positivity
  have hfr1 : ((a % b : Nat) : ℚ) / b < 1 := by
    rw [div_lt_one hb0]; exact_mod_cast hrb
  have hfloor : ⌊(a:ℚ)/b⌋ = ((a / b : Nat) : ℤ) := by
    rw [Int.floor_eq_iff, hx]
    constructor
    · simp only [Int.cast_natCast]
      linarith
    · simp only [Int.cast_natCast]
      linarith
  have hfract : Int.fract ((a:ℚ)/b) = ((a % b : Nat) : ℚ) / b := by
    rw [Int.fract, hfloor, hx]
    simp only [Int.cast_natCast]
    ring
  rw [rheN, rheQ, hfloor, hfract]
  have c1 : (2 * (a % b) < b) ↔ (((a % b : Nat) : ℚ) / b < 1/2) := by
    rw [div_lt_iff₀ hb0]
    constructor
    · intro h; have hq : 2 * ((a % b : Nat) : ℚ) < (b:ℚ) := by exact_mod_cast h
      linarith
    · intro h
      have hq : 2 * ((a % b : Nat) : ℚ) < (b:ℚ) := by linarith
      exact_mod_cast hq
  have c2 : (b < 2 * (a % b)) ↔ ((1:ℚ)/2 < ((a % b : Nat) : ℚ) / b) := by
    rw [lt_div_iff₀ hb0]
    constructor
    · intro h; have hq : (b:ℚ) < 2 * ((a % b : Nat) : ℚ) := by exact_mod_cast h
      linarith
    · intro h
      have hq : (b:ℚ) < 2 * ((a % b : Nat) : ℚ) := by linarith
      exact_mod_cast hq
  have c3 : ((a / b) % 2 = 0) ↔ (((a / b : Nat) : ℤ) % 2 = 0) := by
    constructor
    · intro h; exact_mod_cast congrArg (fun n => ((n : Nat) : ℤ)) h
    · intro h; exact_mod_cast h
  by_cases h1 : 2 * (a % b) < b
  · rw [if_pos h1, if_pos (c1.mp h1)]
  · rw [if_neg h1, if_neg (fun hq => h1 (c1.mpr hq))]
    by_cases h2 : b < 2 * (a % b)
    · rw [if_pos h2, if_pos (c2.mp h2)]
    · rw [if_neg h2, if_neg (fun hq => h2 (c2.mpr hq))]
      by_cases h3 : (a / b) % 2 = 0
      · rw [if_pos h3, if_pos (c3.mp h3)]
      · rw [if_neg h3, if_neg (fun hq => h3 (c3.mpr hq))]

/-- Bound for sums of paired (rounded, exact) values: if each pair differs by
at most c, the sums differ by at most (length) * c. -/
theorem sum_pair_bound (c : ℚ) :
    ∀ (L : List (ℚ × ℚ)), (∀ p ∈ L, |p.1 - p.2| ≤ c) →
      |(L.map Prod.fst).sum - (L.map Prod.snd).sum| ≤ L.length * c := by
  intro L
  induction L with
  | nil => intro _; simp
  | cons hd tl ih =>
    intro h
    have hhd : |hd.1 - hd.2| ≤ c := h hd (List.mem_cons_self hd tl)
    have htl := ih (fun p hp => h p (List.mem_cons_of_mem hd hp))
    have key : |(hd.1 + (tl.map Prod.fst).sum) - (hd.2 + (tl.map Prod.snd).sum)|
        ≤ |hd.1 - hd.2| + |(tl.map Prod.fst).sum - (tl.map Prod.snd).sum| := by
      have he : (hd.1 + (tl.map Prod.fst).sum) - (hd.2 + (tl.map Prod.snd).sum)
          = (hd.1 - hd.2) + ((tl.map Prod.fst).sum - (tl.map Prod.snd).sum) := by ring
      rw [he]; exact abs_add _ _
    simp only [List.map_cons, List.sum_cons, List.length_cons]
    calc |(hd.1 + (tl.map Prod.fst).sum) - (hd.2 + (tl.map Prod.snd).sum)|
        ≤ |hd.1 - hd.2| + |(tl.map Prod.fst).sum - (tl.map Prod.snd).sum| := key
      _ ≤ c + tl.length * c := add_le_add hhd htl
      _ = ((tl.length + 1 : Nat) : ℚ) * c := by push_cast; ring

/-! Association lists in Python-dict insertion order.  lookupA is dict
lookup; dappend models d[k].append(v) on a collections.defaultdict(list)
(inserting the key at the end when absent); updateA models d[k] = v for a
key already present; dgetD models plain subscripting em[k] on a
defaultdict(list), which inserts k -> [] when k is absent and returns the
stored list together with the possibly-grown dict. -/

/-- Dictionary lookup on an insertion-ordered association list. -/
def lookupA {K V : Type} [DecidableEq K] : List (K × V) → K → Option V
  | [], _ => none
  | (k1, v1) :: rest, k => if k1 = k then some v1 else lookupA rest k

/-- Model of defaultdict(list) d[k].append(v). -/
def dappend {K V : Type} [DecidableEq K] :
    List (K × List V) → K → V → List (K × List V)
  | [], k, v => [(k, [v])]
  | (k1, vs) :: rest, k, v =>
    if k1 = k then (k1, vs ++ [v]) :: rest else (k1, vs) :: dappend rest k v

/-- Model of dict assignment d[k] = v (replacing in place when present,
appending at the end when absent). -/
def updateA {K V : Type} [DecidableEq K] :
    List (K × V) → K → V → List (K × V)
  | [], k, v => [(k, v)]
  | (k1, v1) :: rest, k, v =>
    if k1 = k then (k1, v) :: rest else (k1, v1) :: updateA rest k v

/-- Model of subscripting em[k] on a defaultdict(list): returns the list
stored at k, inserting k -> [] first when k is absent. -/
def dgetD {K V : Type} [DecidableEq K] (d : List (K × List V)) (k : K) :
    List V × List (K × List V) :=
  match lookupA d k with
  | some vs => (vs, d)
  | none => ([], d ++ [(k, [])])

theorem lookupA_append_of_some {K V : Type} [DecidableEq K]
    {d : List (K × V)} {k : K} {v : V} (d2 : List (K × V))
    (h : lookupA d k = some v) : lookupA (d ++ d2) k = some v := by
  induction d with
  | nil => simp [lookupA] at h
  | cons hd tl ih =>
    obtain ⟨k1, v1⟩ := hd
    by_cases hk : k1 = k
    · simp only [lookupA, if_pos hk] at h
      simp [lookupA, if_pos hk, h]
    · simp only [lookupA, if_neg hk] at h
      simp only [List.cons_append, lookupA, if_neg hk]
      exact ih h

theorem lookupA_append_of_none {K V : Type} [DecidableEq K]
    {d : List (K × V)} {k : K} (d2 : List (K × V))
    (h : lookupA d k = none) : lookupA (d ++ d2) k = lookupA d2 k := by
  induction d with
  | nil => simp
  | cons hd tl ih =>
    obtain ⟨k1, v1⟩ := hd
    by_cases hk : k1 = k
    · simp [lookupA, if_pos hk] at h
    · simp only [lookupA, if_neg hk] at h
      simp only [List.cons_append, lookupA, if_neg hk]
      exact ih h

theorem lookupA_updateA_self {K V : Type} [DecidableEq K]
    (d : List (K × V)) (k : K) (v : V) :
    lookupA (updateA d k v) k = some v := by
  induction d with
  | nil => simp [updateA, lookupA]
  | cons hd tl ih =>
    obtain ⟨k1, v1⟩ := hd
    by_cases hk : k1 = k
    · simp [updateA, if_pos hk, lookupA]
    · simp only [updateA, if_neg hk, lookupA]
      exact ih

theorem lookupA_updateA_other {K V : Type} [DecidableEq K]
    (d : List (K × V)) (k k2 : K) (v : V) (hk : k2 ≠ k) :
    lookupA (updateA d k2 v) k = lookupA d k := by
  induction d with
  | nil => simp [updateA, lookupA, if_neg hk]
  | cons hd tl ih =>
    obtain ⟨k1, v1⟩ := hd
    by_cases h1 : k1 = k2
    · subst h1
      simp only [updateA, if_pos rfl, lookupA]
      rw [if_neg hk, if_neg hk]
    · simp only [updateA, if_neg h1, lookupA]
      by_cases h2 : k1 = k
      · rw [if_pos h2, if_pos h2]
      · rw [if_neg h2, if_neg h2]
        exact ih

theorem dgetD_key_present {K V : Type} [DecidableEq K]
    (d : List (K × List V)) (k : K) :
    lookupA (dgetD d k).2 k = some (dgetD d k).1 := by
  unfold dgetD
  cases hl : lookupA d k with
  | some vs => simpa using hl
  | none =>
    simp only
    rw [lookupA_append_of_none _ hl]
    simp [lookupA]

theorem dgetD_preserves {K V : Type} [DecidableEq K]
    {d : List (K × List V)} {k0 : K} {v0 : List V} (k : K)
    (h : lookupA d k0 = some v0) : lookupA (dgetD d k).2 k0 = some v0 := by
  unfold dgetD
  cases hl : lookupA d k with
  | some vs => simpa using h
  | none =>
    simp only
    exact lookupA_append_of_some _ h

theorem dgetD_val_of_none {K V : Type} [DecidableEq K]
    {d : List (K × List V)} {k : K}
    (h : lookupA d k = none) : (dgetD d k).1 = [] := by
  unfold dgetD
  rw [h]

/-! Extension normalization.  get_ext_map (fmgr.py lines 150-156) computes
os.path.splitext(file_path) and keys the index by file_ext[1:].  CPython's
splitext (genericpath._splitext, posix separator) finds the last '.' after
the last '/', and yields an extension only when some character strictly
between the last '/' and that '.' is not itself a '.' (so dotfiles such as
.bashrc have no extension).  rfindL models str.rfind for a single
character; splitextExt yields the extension part including its leading dot,
and extKey drops that dot, exactly as file_ext[1:] does. -/

/-- Index of the last occurrence of c in s (str.rfind, as an Option). -/
def rfindL (c : Char) : Str → Option Nat
  | [] => none
  | a :: s =>
    match rfindL c s with
    | some i => some (i + 1)
    | none => if a = c then some 0 else none

/-- First index that can start a file name: one past the last '/', or 0. -/
def sepBound (p : Str) : Nat :=
  match rfindL '/' p with
  | none => 0
  | some i => i + 1

/-- Extension part of a path, including the leading '.', as computed by
os.path.splitext on a posix path. -/
def splitextExt (p : Str) : Str :=
  match rfindL '.' p with
  | none => []
  | some d =>
    if sepBound p ≤ d ∧
        ((p.drop (sepBound p)).take (d - sepBound p)).any (fun c => c != '.') = true
    then p.drop d else []

/-- Extension-index key of a path: the splitext extension with its leading
dot stripped (file_ext[1:] in get_ext_map). -/
def extKey (p : Str) : Str := (splitextExt p).drop 1

/-- File name of a path: the part after the last '/' (used to state the
spec, which speaks about the file name). -/
def afterLastSep (p : Str) : Str :=
  match rfindL '/' p with
  | none => p
  | some i => p.drop (i + 1)

/-- Extension as the specification sentence literally describes it: the
substring of the file name after its final '.', empty when no '.' occurs. -/
def claimedKey (name : Str) : Str :=
  match rfindL '.' name with
  | none => []
  | some d => name.drop (d + 1)

theorem rfindL_eq_none {c : Char} : ∀ {s : Str}, rfindL c s = none ↔ c ∉ s := by
  intro s
  induction s with
  | nil => simp [rfindL]
  | cons a t ih =>
    constructor
    · intro h
      simp only [rfindL] at h
      cases ht : rfindL c t with
      | some i => rw [ht] at h; simp at h
      | none =>
        rw [ht] at h
        by_cases hac : a = c
        · rw [if_pos hac] at h; simp at h
        · intro hmem
          rcases List.mem_cons.mp hmem with h1 | h2
          · exact hac h1.symm
          · exact (ih.mp ht) h2
    · intro h
      have hat : a ≠ c := fun he => h (he ▸ List.mem_cons_self a t)
      have hnt : c ∉ t := fun hm => h (List.mem_cons_of_mem a hm)
      simp only [rfindL, ih.mpr hnt, if_neg hat]

theorem rfindL_cons_some {c : Char} {s : Str} {i : Nat} (a : Char)
    (h : rfindL c s = some i) : rfindL c (a :: s) = some (i + 1) := by
  simp only [rfindL, h]

theorem rfindL_cons_none {c : Char} {s : Str} (a : Char)
    (h : rfindL c s = none) :
    rfindL c (a :: s) = if a = c then some 0 else none := by
  simp only [rfindL, h]

theorem rfindL_append_right {c : Char} {l2 : Str} {i : Nat}
    (h : rfindL c l2 = some i) :
    ∀ (l1 : Str), rfindL c (l1 ++ l2) = some (l1.length + i) := by
  intro l1
  induction l1 with
  | nil => simpa using h
  | cons a t ih =>
    rw [List.cons_append, rfindL_cons_some a ih]
    simp only [List.length_cons, Option.some.injEq]
    omega

theorem rfindL_append_left {c : Char} {l2 : Str} (h : c ∉ l2) :
    ∀ (l1 : Str), rfindL c (l1 ++ l2) = rfindL c l1 := by
  intro l1
  induction l1 with
  | nil => simpa [rfindL] using rfindL_eq_none.mpr h
  | cons a t ih =>
    rw [List.cons_append]
    cases ht : rfindL c t with
    | some j =>
      have hj : rfindL c (t ++ l2) = some j := by rw [ih, ht]
      rw [rfindL_cons_some a hj, rfindL_cons_some a ht]
    | none =>
      have hj : rfindL c (t ++ l2) = none := by rw [ih, ht]
      rw [rfindL_cons_none a hj, rfindL_cons_none a ht]

theorem rfindL_lt_length {c : Char} : ∀ {s : Str} {i : Nat},
    rfindL c s = some i → i < s.length := by
  intro s
  induction s with
  | nil => intro i h; simp [rfindL] at h
  | cons a t ih =>
    intro i h
    simp only [rfindL] at h
    cases ht : rfindL c t with
    | some j =>
      rw [ht] at h
      injection h with h
      have := ih ht
      simp only [List.length_cons]
      omega
    | none =>
      rw [ht] at h
      by_cases hac : a = c
      · rw [if_pos hac] at h
        injection h with h
        simp [← h]
      · rw [if_neg hac] at h; cases h

theorem rfindL_not_mem_drop {c : Char} : ∀ {s : Str} {i : Nat},
    rfindL c s = some i → c ∉ s.drop (i + 1) := by
  intro s
  induction s with
  | nil => intro i h; simp [rfindL] at h
  | cons a t ih =>
    intro i h
    simp only [rfindL] at h
    cases ht : rfindL c t with
    | some j =>
      rw [ht] at h
      injection h with h
      subst h
      simpa using ih ht
    | none =>
      rw [ht] at h
      by_cases hac : a = c
      · rw [if_pos hac] at h
        injection h with h
        subst h
        simpa using rfindL_eq_none.mp ht
      · rw [if_neg hac] at h; cases h

theorem rfindL_head_drop {c : Char} : ∀ {s : Str} {i : Nat},
    rfindL c s = some i → ∃ t, s.drop i = c :: t := by
  intro s
  induction s with
  | nil => intro i h; simp [rfindL] at h
  | cons a t ih =>
    intro i h
    simp only [rfindL] at h
    cases ht : rfindL c t with
    | some j =>
      rw [ht] at h
      injection h with h
      subst h
      simpa using ih ht
    | none =>
      rw [ht] at h
      by_cases hac : a = c
      · rw [if_pos hac] at h
        injection h with h
        subst h
        exact ⟨t, by simp [hac]⟩
      · rw [if_neg hac] at h; cases h

theorem rfindL_all_eq {c : Char} : ∀ {s : Str}, s ≠ [] → (∀ x ∈ s, x = c) →
    rfindL c s = some (s.length - 1) := by
  intro s
  induction s with
  | nil => intro h; cases h rfl
  | cons a t ih =>
    intro _ hall
    have hac : a = c := hall a (List.mem_cons_self a t)
    by_cases ht : t = []
    · subst ht
      simp [rfindL, if_pos hac]
    · have := ih ht (fun x hx => hall x (List.mem_cons_of_mem a hx))
      simp only [rfindL, this, List.length_cons]
      congr 1
      have : 0 < t.length := List.length_pos.mpr ht
      omega

theorem splitextExt_of_none {p : Str} (h : rfindL '.' p = none) :
    splitextExt p = [] := by
  simp [splitextExt, h]

theorem splitextExt_of_some {p : Str} {d : Nat} (h : rfindL '.' p = some d) :
    splitextExt p =
      if sepBound p ≤ d ∧
          ((p.drop (sepBound p)).take (d - sepBound p)).any (fun c => c != '.') = true
      then p.drop d else [] := by
  simp [splitextExt, h]

theorem afterLastSep_no_sep (p : Str) : '/' ∉ afterLastSep p := by
  unfold afterLastSep
  cases hs : rfindL '/' p with
  | none => exact rfindL_eq_none.mp hs
  | some i => exact rfindL_not_mem_drop hs

/-- Path-to-basename reduction: the extension key of a path only depends on
its file name (the part after the last '/'). -/
theorem extKey_eq_basename (p : Str) : extKey p = extKey (afterLastSep p) := by
  cases hs : rfindL '/' p with
  | none => unfold afterLastSep; rw [hs]
  | some i =>
    have hbase : afterLastSep p = p.drop (i + 1) := by unfold afterLastSep; rw [hs]
    rw [hbase]
    have hilen : i < p.length := rfindL_lt_length hs
    have hsplit : p.take (i + 1) ++ p.drop (i + 1) = p := List.take_append_drop (i + 1) p
    have hprelen : (p.take (i + 1)).length = i + 1 := by
      rw [List.length_take]
      omega
    have hnosep : '/' ∉ p.drop (i + 1) := rfindL_not_mem_drop hs
    have hsepb : rfindL '/' (p.drop (i + 1)) = none := rfindL_eq_none.mpr hnosep
    have hsb0 : sepBound (p.drop (i + 1)) = 0 := by unfold sepBound; rw [hsepb]
    have hsbp : sepBound p = i + 1 := by unfold sepBound; rw [hs]
    cases hdb : rfindL '.' (p.drop (i + 1)) with
    | none =>
      have hdp : rfindL '.' p = rfindL '.' (p.take (i + 1)) := by
        conv_lhs => rw [← hsplit]
        exact rfindL_append_left (rfindL_eq_none.mp hdb) _
      rw [extKey, extKey, splitextExt_of_none hdb]
      cases hdpre : rfindL '.' (p.take (i + 1)) with
      | none =>
        rw [splitextExt_of_none (hdp.trans hdpre)]
      | some d =>
        have hdlt : d < i + 1 := hprelen ▸ rfindL_lt_length hdpre
        rw [splitextExt_of_some (hdp.trans hdpre)]
        rw [if_neg]
        intro hcond
        rw [hsbp] at hcond
        omega
    | some db =>
      have hdp : rfindL '.' p = some (i + 1 + db) := by
        conv_lhs => rw [← hsplit]
        rw [rfindL_append_right hdb _, hprelen]
      rw [extKey, extKey, splitextExt_of_some hdp, splitextExt_of_some hdb]
      rw [hsbp, hsb0]
      have harith1 : i + 1 + db - (i + 1) = db := by omega
      have harith2 : (p.drop (i + 1)).drop db = p.drop (i + 1 + db) := by
        rw [List.drop_drop]
      rw [harith1]
      simp only [List.drop_zero, Nat.sub_zero, Nat.zero_le, true_and]
      by_cases hc : ((p.drop (i + 1)).take db).any (fun c => c != '.') = true
      · rw [if_pos ⟨by omega, hc⟩, if_pos hc, harith2]
      · rw [if_neg (fun hh => hc hh.2), if_neg hc]

/-- Basename with no dot: no extension. -/
theorem extKey_of_no_dot {p : Str} (h : '.' ∉ p) : extKey p = [] := by
  rw [extKey, splitextExt_of_none (rfindL_eq_none.mpr h)]
  rfl

/-- Basename of the shape stem ++ '.' :: ext with a dot-free ext and a
non-dot character somewhere in the stem: the key is exactly ext. -/
theorem extKey_stem_ext {stem ext1 : Str}
    (hsep : '/' ∉ stem ++ '.' :: ext1) (hext : '.' ∉ ext1)
    (hst : ∃ c0 ∈ stem, c0 ≠ '.') :
    extKey (stem ++ '.' :: ext1) = ext1 := by
  have hdtail : rfindL '.' ('.' :: ext1) = some 0 := by
    rw [rfindL_cons_none '.' (rfindL_eq_none.mpr hext), if_pos rfl]
  have hd : rfindL '.' (stem ++ '.' :: ext1) = some stem.length := by
    rw [rfindL_append_right hdtail _]
    simp
  have hsb : sepBound (stem ++ '.' :: ext1) = 0 := by
    unfold sepBound
    rw [rfindL_eq_none.mpr hsep]
  rw [extKey, splitextExt_of_some hd, hsb]
  simp only [List.drop_zero, Nat.sub_zero, Nat.zero_le, true_and]
  rw [if_pos]
  · rw [List.drop_left]
    rfl
  · rw [List.take_left]
    rw [List.any_eq_true]
    obtain ⟨c0, hc0m, hc0ne⟩ := hst
    exact ⟨c0, hc0m, by simpa using hc0ne⟩

/-- Basename whose dots, if any, all sit in its leading run (a dotfile such
as .bashrc, or a dotless name): the key is empty. -/
theorem extKey_dotfile {b : Str} (hsep : '/' ∉ b)
    (hdrop : '.' ∉ b.dropWhile (fun c => c == '.')) :
    extKey b = [] := by
  cases hdot : rfindL '.' b with
  | none => rw [extKey, splitextExt_of_none hdot]; rfl
  | some d =>
    have hb : b.takeWhile (fun c => c == '.') ++ b.dropWhile (fun c => c == '.') = b :=
      List.takeWhile_append_dropWhile (fun c => c == '.') b
    have hmem : '.' ∈ b := by
      obtain ⟨t2, ht2⟩ := rfindL_head_drop hdot
      exact List.drop_subset d b (ht2 ▸ List.mem_cons_self '.' t2)
    have hmemt : '.' ∈ b.takeWhile (fun c => c == '.') := by
      rcases List.mem_append.mp (hb ▸ hmem : '.' ∈ _ ++ _) with h1 | h2
      · exact h1
      · exact absurd h2 hdrop
    have htall : ∀ x ∈ b.takeWhile (fun c => c == '.'), x = '.' := by
      intro x hx
      have := List.mem_takeWhile_imp hx
      simpa using this
    have htne : b.takeWhile (fun c => c == '.') ≠ [] := by
      intro hnil
      rw [hnil] at hmemt
      exact absurd hmemt (List.not_mem_nil '.')
    have hfind : rfindL '.' b = some ((b.takeWhile (fun c => c == '.')).length - 1) := by
      conv_lhs => rw [← hb]
      rw [rfindL_append_left hdrop _]
      exact rfindL_all_eq htne htall
    have hdval : d = (b.takeWhile (fun c => c == '.')).length - 1 := by
      rw [hdot] at hfind
      exact Option.some.inj hfind
    rw [extKey, splitextExt_of_some hdot]
    rw [if_neg]
    · rfl
    · intro hcond
      obtain ⟨hle, hany⟩ := hcond
      rw [List.any_eq_true] at hany
      obtain ⟨x, hxm, hxne⟩ := hany
      have hxt : x ∈ b.takeWhile (fun c => c == '.') := by
        have hdlt : d < (b.takeWhile (fun c => c == '.')).length := by
          have := List.length_pos.mpr htne
          omega
        have hseg : (b.drop (sepBound b)).take (d - sepBound b) = b.take d := by
          have hsb : sepBound b = 0 := by
            unfold sepBound
            rw [rfindL_eq_none.mpr hsep]
          rw [hsb]
          simp
        rw [hseg] at hxm
        have htake : b.take d = (b.takeWhile (fun c => c == '.')).take d := by
          conv_lhs => rw [← hb]
          rw [List.take_append_of_le_length (by omega)]
        rw [htake] at hxm
        exact List.take_subset d _ hxm
      have := htall x hxt
      simp [this] at hxne

/-- The key never contains the '.' separator, nor a '/'. -/
theorem extKey_no_dot_no_sep (p : Str) : '.' ∉ extKey p ∧ '/' ∉ extKey p := by
  cases hdot : rfindL '.' p with
  | none =>
    rw [extKey, splitextExt_of_none hdot]
    simp
  | some d =>
    rw [extKey, splitextExt_of_some hdot]
    by_cases hc : sepBound p ≤ d ∧
        ((p.drop (sepBound p)).take (d - sepBound p)).any (fun c => c != '.') = true
    · rw [if_pos hc]
      have hdk : (p.drop d).drop 1 = p.drop (d + 1) := by
        rw [List.drop_drop]
      rw [hdk]
      constructor
      · exact rfindL_not_mem_drop hdot
      · cases hs : rfindL '/' p with
        | none =>
          intro hmem
          exact rfindL_eq_none.mp hs (List.drop_subset (d + 1) p hmem)
        | some i =>
          have hsb : sepBound p = i + 1 := by unfold sepBound; rw [hs]
          have hle : i + 1 ≤ d := by rw [hsb] at hc; exact hc.1
          have hdk2 : p.drop (d + 1) = (p.drop (i + 1)).drop (d - i) := by
            rw [List.drop_drop]
            congr 1
            omega
          rw [hdk2]
          intro hmem
          exact rfindL_not_mem_drop hs (List.drop_subset (d - i) _ hmem)
    · rw [if_neg hc]
      simp

/-! Tree scanner and extension index (fmgr.py lines 74-77 and 145-160).
A scan entry models one element of Path(dir_path).glob('**/*'): its path,
whether is_file() holds, the stat().st_size, and whether touching the entry
raises PermissionError (in which case get_ext_map skips it). -/

/-- One entry produced by the recursive tree scan. -/
structure Entry where
  path : Str
  isFile : Bool
  size : Nat
  denied : Bool
deriving DecidableEq, Repr

/-- File record held in the extension index (class FileInfo, fmgr.py
lines 28-34: path and size; the derived percent fields are added by
extension_stats and modelled on the statistics records below). -/
structure FileInfo where
  path : Str
  size : Nat
deriving DecidableEq, Repr

/-- Extension index: mapping from normalized extension to the ordered list
of file records, in scan order (a defaultdict(list) in the source). -/
abbrev ExtMap := List (Str × List FileInfo)

/-- One step of the get_ext_map loop (fmgr.py lines 150-158): denied entries
are skipped, directories are skipped, and a file is appended to the group of
its extension key. -/
def addEntry (d : ExtMap) (e : Entry) : ExtMap :=
  if e.denied then d
  else if e.isFile then dappend d (extKey e.path) ⟨e.path, e.size⟩
  else d

/-- Extension index built by one full scan (the loop of fmgr.py
lines 150-158). -/
def buildExtMap (entries : List Entry) : ExtMap :=
  entries.foldl addEntry []

/-- State of a FileMgmt object: the root path and the extdicts cache
(fmgr.py lines 64-66). -/
structure FM where
  path : Str
  extdicts : List (Str × ExtMap)
deriving DecidableEq, Repr

/-- get_ext_map (fmgr.py lines 145-160): return the cached index for
dir_path when present; otherwise scan, build, cache and return.  The scan
function stands for list_files_recursive; passing it explicitly lets the
theorems state that a cached call never consults it. -/
def get_ext_map (scan : Str → List Entry) (st : FM) (dir : Str) :
    ExtMap × FM :=
  match lookupA st.extdicts dir with
  | some m => (m, st)
  | none =>
    let m := buildExtMap (scan dir)
    (m, ⟨st.path, st.extdicts ++ [(dir, m)]⟩)

theorem get_ext_map_caches (scan : Str → List Entry) (st : FM) (dir : Str) :
    lookupA (get_ext_map scan st dir).2.extdicts dir
      = some (get_ext_map scan st dir).1 := by
  unfold get_ext_map
  cases hl : lookupA st.extdicts dir with
  | some m => simpa using hl
  | none =>
    simp only
    rw [lookupA_append_of_none _ hl]
    simp [lookupA]

theorem get_ext_map_preserves (scan : Str → List Entry) (st : FM) (dir : Str)
    {d0 : Str} {m0 : ExtMap} (h : lookupA st.extdicts d0 = some m0) :
    lookupA (get_ext_map scan st dir).2.extdicts d0 = some m0 := by
  unfold get_ext_map
  cases hl : lookupA st.extdicts dir with
  | some m => simpa using h
  | none =>
    simp only
    exact lookupA_append_of_some _ h

theorem get_ext_map_path (scan : Str → List Entry) (st : FM) (dir : Str) :
    (get_ext_map scan st dir).2.path = st.path := by
  unfold get_ext_map
  cases hl : lookupA st.extdicts dir <;> simp

/-! Statistics engine: extension_stats (fmgr.py lines 162-179).  Pass 1
computes, per group, ext_sum and each record's percent =
round((size / ext_sum) * 100, 2), raising ZeroDivisionError when a record is
reached with ext_sum = 0; it also accumulates ext_sum_all.  Pass 2 computes
each record's percent_all against ext_sum_all.  Pass 3 sorts each group by
size descending (Python's sort is stable).  The two percent fields are
stored as exact integer hundredths (see the file comment). -/

/-- Record after pass 1: percent populated, as integer hundredths. -/
structure PRec where
  path : Str
  size : Nat
  percentH : ℤ
deriving DecidableEq, Repr

/-- Record after pass 2: percent and percent_all populated, as integer
hundredths. -/
structure SRec where
  path : Str
  size : Nat
  percentH : ℤ
  percentAllH : ℤ
deriving DecidableEq, Repr

/-- Rational percent-of-extension carried by a record. -/
def SRec.percent (r : SRec) : ℚ := (r.percentH : ℚ) / 100

/-- Rational percent-of-all carried by a record. -/
def SRec.percent_all (r : SRec) : ℚ := (r.percentAllH : ℚ) / 100

/-- Sum of the sizes of a list of file records (ext_sum). -/
def sizeSum (files : List FileInfo) : Nat := (files.map FileInfo.size).sum

/-- Global size total ext_sum_all: the sum of all group sums. -/
def totalSize (m : ExtMap) : Nat := (m.map (fun kv => sizeSum kv.2)).sum

/-- Pass-1 body for one group: assign f.percent for every record, raising
(error) when the loop reaches a record while ext_sum is zero. -/
def groupPercents (files : List FileInfo) : Except Unit (List PRec) :=
  if sizeSum files = 0 then
    if files = [] then .ok [] else .error ()
  else
    .ok (files.map (fun f => ⟨f.path, f.size, rheN (10000 * f.size) (sizeSum files)⟩))

/-- Pass 1 over all groups, in dictionary order. -/
def pass1 : ExtMap → Except Unit (List (Str × List PRec))
  | [] => .ok []
  | (k, files) :: rest =>
    match groupPercents files with
    | .error e => .error e
    | .ok recs =>
      match pass1 rest with
      | .error e => .error e
      | .ok out => .ok ((k, recs) :: out)

/-- Pass-2 assignment for one record. -/
def addPercentAll (T : Nat) (r : PRec) : SRec :=
  ⟨r.path, r.size, r.percentH, rheN (10000 * r.size) T⟩

/-- Pass-2 body for one group: assign f.percent_all for every record,
raising when the loop reaches a record while ext_sum_all is zero. -/
def groupPercentAll (T : Nat) (recs : List PRec) : Except Unit (List SRec) :=
  if recs = [] then .ok []
  else if T = 0 then .error ()
  else .ok (recs.map (addPercentAll T))

/-- Pass 2 over all groups. -/
def pass2 (T : Nat) : List (Str × List PRec) → Except Unit (List (Str × List SRec))
  | [] => .ok []
  | (k, recs) :: rest =>
    match groupPercentAll T recs with
    | .error e => .error e
    | .ok recs2 =>
      match pass2 T rest with
      | .error e => .error e
      | .ok out => .ok ((k, recs2) :: out)

/-- Stable descending insertion by size: a record moves ahead only of
strictly smaller records, which is what a stable sort with reverse=True
produces. -/
def insertDesc (r : SRec) : List SRec → List SRec
  | [] => [r]
  | x :: xs => if x.size < r.size then r :: x :: xs else x :: insertDesc r xs

/-- Stable sort of one group by size descending (v.sort(key=size,
reverse=True), fmgr.py lines 173-174). -/
def sortDesc : List SRec → List SRec
  | [] => []
  | r :: rest => insertDesc r (sortDesc rest)

/-- extension_stats (fmgr.py lines 162-174): both percentage passes followed
by the per-group sort; the error value stands for ZeroDivisionError. -/
def extension_stats (m : ExtMap) : Except Unit (List (Str × List SRec)) :=
  match pass1 m with
  | .error e => .error e
  | .ok m1 =>
    match pass2 (totalSize m) m1 with
    | .error e => .error e
    | .ok m2 => .ok (m2.map (fun kv => (kv.1, sortDesc kv.2)))

theorem insertDesc_perm (r : SRec) : ∀ l : List SRec,
    (insertDesc r l).Perm (r :: l) := by
  intro l
  induction l with
  | nil => simp [insertDesc]
  | cons x xs ih =>
    unfold insertDesc
    by_cases h : x.size < r.size
    · rw [if_pos h]
    · rw [if_neg h]
      exact List.Perm.trans (List.Perm.cons x ih) (List.Perm.swap r x xs)

theorem sortDesc_perm : ∀ l : List SRec, (sortDesc l).Perm l := by
  intro l
  induction l with
  | nil => simp [sortDesc]
  | cons r rest ih =>
    unfold sortDesc
    exact List.Perm.trans (insertDesc_perm r (sortDesc rest)) (List.Perm.cons r ih)

/-- Per-record pass-1 assignment, as a function. -/
def p1rec (s : Nat) (f : FileInfo) : PRec :=
  ⟨f.path, f.size, rheN (10000 * f.size) s⟩

theorem groupPercents_ok {files : List FileInfo} {recs : List PRec}
    (h : groupPercents files = .ok recs) :
    recs = files.map (p1rec (sizeSum files)) ∧ (files = [] ∨ sizeSum files ≠ 0) := by
  unfold groupPercents at h
  by_cases hs : sizeSum files = 0
  · rw [if_pos hs] at h
    by_cases hf : files = []
    · rw [if_pos hf] at h
      injection h with h
      subst hf
      exact ⟨h.symm, Or.inl rfl⟩
    · rw [if_neg hf] at h
      cases h
  · rw [if_neg hs] at h
    injection h with h
    exact ⟨h.symm ▸ rfl, Or.inr hs⟩

theorem groupPercents_error_iff {files : List FileInfo} :
    groupPercents files = .error () ↔ files ≠ [] ∧ sizeSum files = 0 := by
  unfold groupPercents
  by_cases hs : sizeSum files = 0
  · rw [if_pos hs]
    by_cases hf : files = []
    · rw [if_pos hf]
      simp [hf]
    · rw [if_neg hf]
      simp [hf, hs]
  · rw [if_neg hs]
    simp [hs]

theorem pass1_ok_shape : ∀ {m : ExtMap} {m1 : List (Str × List PRec)},
    pass1 m = .ok m1 →
    m1 = m.map (fun kv => (kv.1, kv.2.map (p1rec (sizeSum kv.2))))
      ∧ ∀ kv ∈ m, kv.2 = [] ∨ sizeSum kv.2 ≠ 0 := by
  intro m
  induction m with
  | nil =>
    intro m1 h
    injection h with h
    exact ⟨h.symm, by intro kv hkv; cases hkv⟩
  | cons kv0 rest ih =>
    intro m1 h
    obtain ⟨k, files⟩ := kv0
    unfold pass1 at h
    cases hgp : groupPercents files with
    | error e => rw [hgp] at h; cases h
    | ok recs =>
      rw [hgp] at h
      cases hp : pass1 rest with
      | error e => rw [hp] at h; cases h
      | ok out =>
        rw [hp] at h
        injection h with h
        obtain ⟨hshape, hgood⟩ := ih hp
        obtain ⟨hrecs, hgood0⟩ := groupPercents_ok hgp
        constructor
        · rw [← h, List.map_cons, ← hshape, hrecs]
        · intro kv hkv
          rcases List.mem_cons.mp hkv with h1 | h2
          · subst h1; exact hgood0
          · exact hgood kv h2

theorem pass1_error_iff : ∀ {m : ExtMap},
    pass1 m = .error () ↔ ∃ kv ∈ m, kv.2 ≠ [] ∧ sizeSum kv.2 = 0 := by
  intro m
  induction m with
  | nil => simp [pass1]
  | cons kv0 rest ih =>
    obtain ⟨k, files⟩ := kv0
    constructor
    · intro h
      unfold pass1 at h
      cases hgp : groupPercents files with
      | error e =>
        cases e
        exact ⟨(k, files), List.mem_cons_self _ _, groupPercents_error_iff.mp hgp⟩
      | ok recs =>
        rw [hgp] at h
        cases hp : pass1 rest with
        | error e =>
          cases e
          obtain ⟨kv, hkv, hbad⟩ := ih.mp hp
          exact ⟨kv, List.mem_cons_of_mem _ hkv, hbad⟩
        | ok out => rw [hp] at h; cases h
    · intro ⟨kv, hkv, hbad⟩
      unfold pass1
      rcases List.mem_cons.mp hkv with h1 | h2
      · have : groupPercents files = .error () := by
          apply groupPercents_error_iff.mpr
          rw [h1] at hbad
          exact hbad
        rw [this]
      · cases hgp : groupPercents files with
        | error e => cases e; rfl
        | ok recs =>
          have : pass1 rest = .error () := ih.mpr ⟨kv, h2, hbad⟩
          rw [this]

theorem groupPercentAll_ok {T : Nat} {recs : List PRec} {recs2 : List SRec}
    (h : groupPercentAll T recs = .ok recs2) :
    recs2 = recs.map (addPercentAll T) ∧ (recs = [] ∨ T ≠ 0) := by
  unfold groupPercentAll at h
  by_cases hr : recs = []
  · rw [if_pos hr] at h
    injection h with h
    subst hr
    exact ⟨h.symm, Or.inl rfl⟩
  · rw [if_neg hr] at h
    by_cases hT : T = 0
    · rw [if_pos hT] at h; cases h
    · rw [if_neg hT] at h
      injection h with h
      exact ⟨h.symm, Or.inr hT⟩

theorem groupPercentAll_error_iff {T : Nat} {recs : List PRec} :
    groupPercentAll T recs = .error () ↔ recs ≠ [] ∧ T = 0 := by
  unfold groupPercentAll
  by_cases hr : recs = []
  · rw [if_pos hr]; simp [hr]
  · rw [if_neg hr]
    by_cases hT : T = 0
    · rw [if_pos hT]; simp [hr, hT]
    · rw [if_neg hT]; simp [hr, hT]

theorem pass2_ok_shape {T : Nat} : ∀ {m1 : List (Str × List PRec)}
    {m2 : List (Str × List SRec)}, pass2 T m1 = .ok m2 →
    m2 = m1.map (fun kv => (kv.1, kv.2.map (addPercentAll T)))
      ∧ ∀ kv ∈ m1, kv.2 = [] ∨ T ≠ 0 := by
  intro m1
  induction m1 with
  | nil =>
    intro m2 h
    injection h with h
    exact ⟨h.symm, by intro kv hkv; cases hkv⟩
  | cons kv0 rest ih =>
    intro m2 h
    obtain ⟨k, recs⟩ := kv0
    unfold pass2 at h
    cases hgp : groupPercentAll T recs with
    | error e => rw [hgp] at h; cases h
    | ok recs2 =>
      rw [hgp] at h
      cases hp : pass2 T rest with
      | error e => rw [hp] at h; cases h
      | ok out =>
        rw [hp] at h
        injection h with h
        obtain ⟨hshape, hgood⟩ := ih hp
        obtain ⟨hrecs, hgood0⟩ := groupPercentAll_ok hgp
        constructor
        · rw [← h, List.map_cons, ← hshape, hrecs]
        · intro kv hkv
          rcases List.mem_cons.mp hkv with h1 | h2
          · subst h1; exact hgood0
          · exact hgood kv h2

theorem pass2_error {T : Nat} : ∀ {m1 : List (Str × List PRec)},
    pass2 T m1 = .error () → ∃ kv ∈ m1, kv.2 ≠ [] ∧ T = 0 := by
  intro m1
  induction m1 with
  | nil => intro h; cases h
  | cons kv0 rest ih =>
    intro h
    obtain ⟨k, recs⟩ := kv0
    unfold pass2 at h
    cases hgp : groupPercentAll T recs with
    | error e =>
      cases e
      exact ⟨(k, recs), List.mem_cons_self _ _, groupPercentAll_error_iff.mp hgp⟩
    | ok recs2 =>
      rw [hgp] at h
      cases hp : pass2 T rest with
      | error e =>
        cases e
        obtain ⟨kv, hkv, hbad⟩ := ih hp
        exact ⟨kv, List.mem_cons_of_mem _ hkv, hbad⟩
      | ok out => rw [hp] at h; cases h

/-- Rational percent sum of one output group. -/
def percentSum (recs : List SRec) : ℚ := (recs.map SRec.percent).sum

/-- Rational percent_all sum over every record of the index. -/
def percentAllSum (out : List (Str × List SRec)) : ℚ :=
  ((out.map Prod.snd).flatten.map SRec.percent_all).sum

/-- Size total of one output group. -/
def groupSizeSum (recs : List SRec) : Nat := (recs.map SRec.size).sum

/-- Size total over every record of the output index. -/
def allSizeSum (out : List (Str × List SRec)) : Nat :=
  ((out.map Prod.snd).flatten.map SRec.size).sum

/-- Number of records in the output index. -/
def recCount (out : List (Str × List SRec)) : Nat :=
  (out.map Prod.snd).flatten.length

theorem percent_err (a s : Nat) (hs : s ≠ 0) :
    |((rheN (10000 * a) s : ℤ) : ℚ)/100 - 100 * (a:ℚ)/s| ≤ 1/200 := by
  have h := rheN_spec (10000 * a) s hs
  have he : ((rheN (10000 * a) s : ℤ) : ℚ)/100 - 100 * (a:ℚ)/s
      = (((rheN (10000 * a) s : ℤ) : ℚ) - ((10000 * a : Nat) : ℚ)/s) / 100 := by
    push_cast
    ring
  rw [he, abs_div]
  have h100 : |(100:ℚ)| = 100 := by norm_num
  rw [h100, div_le_iff₀ (by norm_num : (0:ℚ) < 100)]
  linarith

theorem exact_sum_div (s : Nat) : ∀ (l : List Nat),
    (l.map (fun (a : Nat) => 100 * (a:ℚ)/s)).sum = 100 * ((l.sum : Nat) : ℚ)/s := by
  intro l
  induction l with
  | nil => simp
  | cons a t ih =>
    simp only [List.map_cons, List.sum_cons, ih, Nat.cast_add]
    ring

/-- Core rounding bound: the rounded group percentages of a list of files,
against denominator sizeSum, sum to 100 within length/200 (hence within
length/100). -/
theorem group_sum_bound (files : List FileInfo) (hs : sizeSum files ≠ 0) :
    |(files.map (fun f => ((rheN (10000 * f.size) (sizeSum files) : ℤ) : ℚ)/100)).sum - 100|
      ≤ (files.length : ℚ) * (1/100) := by
  have hb := sum_pair_bound (1/200)
    (files.map (fun f =>
      (((rheN (10000 * f.size) (sizeSum files) : ℤ) : ℚ)/100, 100 * (f.size:ℚ)/(sizeSum files))))
    (by
      intro p hp
      obtain ⟨f, hf, rfl⟩ := List.mem_map.mp hp
      exact percent_err f.size (sizeSum files) hs)
  rw [List.map_map, List.map_map, List.length_map] at hb
  have h1 : files.map (Prod.fst ∘ fun f =>
      (((rheN (10000 * f.size) (sizeSum files) : ℤ) : ℚ)/100, 100 * (f.size:ℚ)/(sizeSum files)))
      = files.map (fun f => ((rheN (10000 * f.size) (sizeSum files) : ℤ) : ℚ)/100) := rfl
  have h2 : files.map (Prod.snd ∘ fun f =>
      (((rheN (10000 * f.size) (sizeSum files) : ℤ) : ℚ)/100, 100 * (f.size:ℚ)/(sizeSum files)))
      = (files.map FileInfo.size).map (fun (a : Nat) => 100 * (a:ℚ)/(sizeSum files)) := by
    rw [List.map_map]
    rfl
  rw [h1, h2, exact_sum_div] at hb
  have hsq : ((sizeSum files : Nat) : ℚ) ≠ 0 := by
    exact_mod_cast hs
  have h3 : 100 * (((files.map FileInfo.size).sum : Nat) : ℚ)/(sizeSum files) = 100 := by
    rw [show (files.map FileInfo.size).sum = sizeSum files from rfl]
    field_simp
  rw [h3] at hb
  have hlen : (0:ℚ) ≤ (files.length : ℚ) := by positivity
  calc |(files.map (fun f => ((rheN (10000 * f.size) (sizeSum files) : ℤ) : ℚ)/100)).sum - 100|
      ≤ (files.length : ℚ) * (1/200) := hb
    _ ≤ (files.length : ℚ) * (1/100) := by
        apply mul_le_mul_of_nonneg_left _ hlen
        norm_num

/-- Sum of a mapped flatten, as the sum of the per-group sums. -/
theorem flatten_map_sum {α β : Type} [AddCommMonoid β] (f : α → β)
    (L : List (List α)) :
    (L.flatten.map f).sum = (L.map (fun l => (l.map f).sum)).sum := by
  rw [List.map_flatten, List.sum_flatten, List.map_map]
  rfl

theorem flatten_length_sum {α : Type} (L : List (List α)) :
    L.flatten.length = (L.map List.length).sum :=
  List.length_flatten L

/-- Composite per-group transformation the successful extension_stats
performs: pass-1 percents, pass-2 percent_all against the global total T,
then the descending sort. -/
def statsGroup (T : Nat) (kv : Str × List FileInfo) : Str × List SRec :=
  (kv.1, sortDesc ((kv.2.map (p1rec (sizeSum kv.2))).map (addPercentAll T)))

theorem extension_stats_ok_shape {m : ExtMap} {out : List (Str × List SRec)}
    (h : extension_stats m = .ok out) :
    out = m.map (statsGroup (totalSize m))
      ∧ ∀ kv ∈ m, kv.2 = [] ∨ sizeSum kv.2 ≠ 0 := by
  unfold extension_stats at h
  cases hp1 : pass1 m with
  | error e => rw [hp1] at h; cases h
  | ok m1 =>
    rw [hp1] at h
    dsimp only at h
    cases hp2 : pass2 (totalSize m) m1 with
    | error e => rw [hp2] at h; cases h
    | ok m2 =>
      rw [hp2] at h
      dsimp only at h
      injection h with h
      obtain ⟨hsh1, hgood1⟩ := pass1_ok_shape hp1
      obtain ⟨hsh2, hgood2⟩ := pass2_ok_shape hp2
      constructor
      · rw [← h, hsh2, hsh1, List.map_map, List.map_map]
        rfl
      · exact hgood1

theorem group_percent_convert (files : List FileInfo) (T : Nat) :
    percentSum (sortDesc ((files.map (p1rec (sizeSum files))).map (addPercentAll T)))
      = (files.map (fun f => ((rheN (10000 * f.size) (sizeSum files) : ℤ) : ℚ)/100)).sum := by
  unfold percentSum
  rw [((sortDesc_perm _).map SRec.percent).sum_eq, List.map_map, List.map_map]
  rfl

theorem group_percent_all_convert (files : List FileInfo) (s T : Nat) :
    ((sortDesc ((files.map (p1rec s)).map (addPercentAll T))).map SRec.percent_all).sum
      = (files.map (fun f => ((rheN (10000 * f.size) T : ℤ) : ℚ)/100)).sum := by
  rw [((sortDesc_perm _).map SRec.percent_all).sum_eq, List.map_map, List.map_map]
  rfl

theorem group_size_convert (files : List FileInfo) (s T : Nat) :
    groupSizeSum (sortDesc ((files.map (p1rec s)).map (addPercentAll T)))
      = sizeSum files := by
  unfold groupSizeSum
  rw [((sortDesc_perm _).map SRec.size).sum_eq, List.map_map, List.map_map]
  rfl

theorem group_len_convert (files : List FileInfo) (s T : Nat) :
    (sortDesc ((files.map (p1rec s)).map (addPercentAll T))).length
      = files.length := by
  rw [(sortDesc_perm _).length_eq, List.length_map, List.length_map]

theorem stats_global_sums (T : Nat) : ∀ (m : ExtMap),
    percentAllSum (m.map (statsGroup T))
        = ((m.map Prod.snd).flatten.map
            (fun f => ((rheN (10000 * f.size) T : ℤ) : ℚ)/100)).sum
      ∧ allSizeSum (m.map (statsGroup T)) = totalSize m
      ∧ recCount (m.map (statsGroup T)) = (m.map Prod.snd).flatten.length
      ∧ sizeSum ((m.map Prod.snd).flatten) = totalSize m := by
  intro m
  induction m with
  | nil =>
    refine ⟨?_, ?_, ?_, ?_⟩ <;>
      simp [percentAllSum, allSizeSum, recCount, sizeSum, totalSize]
  | cons kv rest ih =>
    obtain ⟨ih1, ih2, ih3, ih4⟩ := ih
    have hgrp : (statsGroup T kv).2
        = sortDesc ((kv.2.map (p1rec (sizeSum kv.2))).map (addPercentAll T)) := rfl
    refine ⟨?_, ?_, ?_, ?_⟩
    · simp only [percentAllSum, List.map_cons, List.flatten_cons, List.map_append,
        List.sum_append] at ih1 ⊢
      rw [ih1]
      congr 1
      rw [hgrp]
      exact group_percent_all_convert kv.2 (sizeSum kv.2) T
    · simp only [allSizeSum, totalSize, List.map_cons, List.flatten_cons, List.map_append,
        List.sum_append, List.sum_cons] at ih2 ⊢
      rw [ih2]
      congr 1
      rw [show ((statsGroup T kv).2.map SRec.size).sum
          = groupSizeSum (statsGroup T kv).2 from rfl, hgrp]
      exact group_size_convert kv.2 (sizeSum kv.2) T
    · simp only [recCount, List.map_cons, List.flatten_cons, List.length_append] at ih3 ⊢
      rw [ih3]
      congr 1
      rw [hgrp]
      exact group_len_convert kv.2 (sizeSum kv.2) T
    · simp only [sizeSum, totalSize, List.map_cons, List.flatten_cons, List.map_append,
        List.sum_append, List.sum_cons] at ih4 ⊢
      rw [ih4]

deriving instance DecidableEq for Except

theorem percent_as_round2 (a s : Nat) (hs : s ≠ 0) :
    ((rheN (10000 * a) s : ℤ) : ℚ) / 100 = round2 (100 * (a:ℚ) / s) := by
  rw [round2, rheN_eq_rheQ _ _ hs]
  congr 2
  push_cast
  ring

/-- C1: for every non-empty positive-total extension group of an index
produced by extension_stats, the percent values sum to 100 within 0.01
times the group size; and when the global total is positive, the
percent_all values over all records sum to 100 within 0.01 times the
record count. -/
theorem extension_stats_percent_sums (m : ExtMap) (out : List (Str × List SRec))
    (h : extension_stats m = .ok out) :
    (∀ k recs, (k, recs) ∈ out → recs ≠ [] → 0 < groupSizeSum recs →
        |percentSum recs - 100| ≤ (recs.length : ℚ) * (1/100))
    ∧ (0 < allSizeSum out →
        |percentAllSum out - 100| ≤ (recCount out : ℚ) * (1/100)) := by
  obtain ⟨hshape, hgood⟩ := extension_stats_ok_shape h
  subst hshape
  constructor
  · intro k recs hmem hne hpos
    obtain ⟨kv, hkv, hfkv⟩ := List.mem_map.mp hmem
    obtain ⟨k0, files⟩ := kv
    have hrecs : recs =
        sortDesc ((files.map (p1rec (sizeSum files))).map (addPercentAll (totalSize m))) :=
      (congrArg Prod.snd hfkv).symm
    have hfne : files ≠ [] := by
      intro hnil
      rw [hrecs, hnil] at hne
      simp [sortDesc] at hne
    have hs0 : sizeSum files ≠ 0 := by
      rcases hgood (k0, files) hkv with h1 | h2
      · exact absurd h1 hfne
      · exact h2
    rw [hrecs, group_percent_convert files (totalSize m),
      group_len_convert files (sizeSum files) (totalSize m)]
    exact group_sum_bound files hs0
  · intro hpos
    obtain ⟨g1, g2, g3, g4⟩ := stats_global_sums (totalSize m) m
    rw [g2] at hpos
    have hT : totalSize m ≠ 0 := by omega
    have hb := group_sum_bound ((m.map Prod.snd).flatten)
      (by rw [g4]; exact hT)
    rw [g4] at hb
    rw [g1, g3]
    exact hb

/-- C2 counterexample: a non-empty extension group consisting of a single
zero-byte file makes extension_stats raise ZeroDivisionError instead of
skipping the percentage assignment. -/
theorem extension_stats_zero_total_raises :
    extension_stats [("txt".toList, [⟨"/r/empty.txt".toList, 0⟩])] = .error () := by
  decide

/-- C2 amended: extension_stats raises (ZeroDivisionError) exactly when some
group is non-empty with zero total size; only a group with no records is
skipped without raising, and the percentOfAll pass likewise never raises
unless such a group exists. -/
theorem extension_stats_error_iff (m : ExtMap) :
    extension_stats m = .error () ↔ ∃ kv ∈ m, kv.2 ≠ [] ∧ sizeSum kv.2 = 0 := by
  constructor
  · intro h
    unfold extension_stats at h
    cases hp1 : pass1 m with
    | error e =>
      cases e
      exact pass1_error_iff.mp hp1
    | ok m1 =>
      rw [hp1] at h
      dsimp only at h
      cases hp2 : pass2 (totalSize m) m1 with
      | error e =>
        cases e
        obtain ⟨kv1, hkv1, hne1, hT⟩ := pass2_error hp2
        obtain ⟨hsh1, hgood1⟩ := pass1_ok_shape hp1
        rw [hsh1] at hkv1
        obtain ⟨kv, hkv, hfkv⟩ := List.mem_map.mp hkv1
        refine ⟨kv, hkv, ?_, ?_⟩
        · intro hnil
          apply hne1
          have h2 : kv1.2 = kv.2.map (p1rec (sizeSum kv.2)) := (congrArg Prod.snd hfkv).symm
          rw [h2, hnil]
          rfl
        · have hT0 : (m.map (fun kv => sizeSum kv.2)).sum = 0 := hT
          have hmem2 : sizeSum kv.2 ∈ m.map (fun kv => sizeSum kv.2) :=
            List.mem_map_of_mem _ hkv
          exact (List.sum_eq_zero_iff.mp hT0) _ hmem2
      | ok m2 =>
        rw [hp2] at h
        dsimp only at h
        cases h
  · intro hex
    have hp1 : pass1 m = .error () := pass1_error_iff.mpr hex
    unfold extension_stats
    rw [hp1]

/-- Witness input for the C2 amended theorem. -/
def zeroIdx : ExtMap := [("txt".toList, [⟨"/r/empty.txt".toList, 0⟩])]

/-- Witness for the C2 amended theorem: the iff instantiated at a concrete
index with one zero-byte file. -/
theorem extension_stats_error_iff_witness :
    extension_stats zeroIdx = .error () :=
  (extension_stats_error_iff zeroIdx).mpr
    ⟨("txt".toList, [⟨"/r/empty.txt".toList, 0⟩]), by decide, by decide, by decide⟩

/-- Scenario A input: a root whose only files are three .txt files of sizes
100, 200 and 300 bytes. -/
def scenA : List Entry :=
  [⟨"/r/a.txt".toList, true, 100, false⟩,
   ⟨"/r/b.txt".toList, true, 200, false⟩,
   ⟨"/r/c.txt".toList, true, 300, false⟩]

/-- Scenario A expected output: one txt group, sorted by size descending,
with percents 50.0, 33.33, 16.67 (stored as hundredths) and percent_all
equal to percent. -/
def scenAOut : List (Str × List SRec) :=
  [("txt".toList,
    [⟨"/r/c.txt".toList, 300, 5000, 5000⟩,
     ⟨"/r/b.txt".toList, 200, 3333, 3333⟩,
     ⟨"/r/a.txt".toList, 100, 1667, 1667⟩])]

/-- Scenario A record list. -/
def scenARecs : List SRec :=
  [⟨"/r/c.txt".toList, 300, 5000, 5000⟩,
   ⟨"/r/b.txt".toList, 200, 3333, 3333⟩,
   ⟨"/r/a.txt".toList, 100, 1667, 1667⟩]

/-- C9: every record of a produced index carries
percent = round(100 * size / extensionTotal, 2) and
percent_all = round(100 * size / globalTotal, 2); and in Scenario A the
percents are 50.0, 33.33, 16.67 with percent_all equal to percent for every
record. -/
theorem extension_stats_record_formulas :
    (∀ (m : ExtMap) (out : List (Str × List SRec)), extension_stats m = .ok out →
      ∀ k recs, (k, recs) ∈ out → ∀ r ∈ recs,
        r.percent = round2 ((100 * (r.size : ℚ)) / (groupSizeSum recs : ℚ))
        ∧ r.percent_all = round2 ((100 * (r.size : ℚ)) / (allSizeSum out : ℚ)))
    ∧ extension_stats (buildExtMap scenA) = .ok scenAOut
    ∧ (scenAOut.map Prod.snd).flatten.map SRec.percent = [50, 3333/100, 1667/100]
    ∧ (∀ r ∈ (scenAOut.map Prod.snd).flatten, r.percent_all = r.percent) := by
  refine ⟨?_, by decide, ?_, ?_⟩
  · intro m out h k recs hmem r hr
    obtain ⟨hshape, hgood⟩ := extension_stats_ok_shape h
    subst hshape
    obtain ⟨kv, hkv, hfkv⟩ := List.mem_map.mp hmem
    obtain ⟨k0, files⟩ := kv
    have hrecs : recs =
        sortDesc ((files.map (p1rec (sizeSum files))).map (addPercentAll (totalSize m))) :=
      (congrArg Prod.snd hfkv).symm
    have hr2 : r ∈ (files.map (p1rec (sizeSum files))).map (addPercentAll (totalSize m)) := by
      rw [hrecs] at hr
      exact ((sortDesc_perm _).mem_iff).mp hr
    obtain ⟨p, hp, rfl⟩ := List.mem_map.mp hr2
    obtain ⟨f, hf, rfl⟩ := List.mem_map.mp hp
    have hfne : files ≠ [] := by
      intro hnil
      rw [hnil] at hf
      cases hf
    have hs0 : sizeSum files ≠ 0 := by
      rcases hgood (k0, files) hkv with h1 | h2
      · exact absurd h1 hfne
      · exact h2
    have hgss : groupSizeSum recs = sizeSum files := by
      rw [hrecs]
      exact group_size_convert files (sizeSum files) (totalSize m)
    have hmem2 : sizeSum files ∈ m.map (fun kv => sizeSum kv.2) :=
      List.mem_map_of_mem _ hkv
    have hle : sizeSum files ≤ totalSize m :=
      List.single_le_sum (fun x _ => Nat.zero_le x) _ hmem2
    have hT : totalSize m ≠ 0 := by omega
    have hall : allSizeSum (m.map (statsGroup (totalSize m))) = totalSize m :=
      (stats_global_sums (totalSize m) m).2.1
    constructor
    · rw [hgss]
      exact percent_as_round2 f.size (sizeSum files) hs0
    · rw [hall]
      exact percent_as_round2 f.size (totalSize m) hT
  · simp only [scenAOut, List.map_cons, List.map_nil, List.flatten_cons, List.flatten_nil,
      List.append_nil, SRec.percent]
    norm_num
  · intro r hr
    simp only [scenAOut, List.map_cons, List.map_nil, List.flatten_cons, List.flatten_nil,
      List.append_nil, List.mem_cons, List.not_mem_nil, or_false] at hr
    rcases hr with rfl | rfl | rfl <;> rfl

/-- Witness for C1: the percentage-sum bound instantiated on the concrete
Scenario A index. -/
theorem extension_stats_percent_sums_witness :
    extension_stats (buildExtMap scenA) = .ok scenAOut
    ∧ |percentSum scenARecs - 100| ≤ (scenARecs.length : ℚ) * (1/100)
    ∧ |percentAllSum scenAOut - 100| ≤ (recCount scenAOut : ℚ) * (1/100) :=
  ⟨by decide,
   (extension_stats_percent_sums (buildExtMap scenA) scenAOut (by decide)).1
     "txt".toList scenARecs (by decide) (by decide) (by decide),
   (extension_stats_percent_sums (buildExtMap scenA) scenAOut (by decide)).2 (by decide)⟩

/-- Witness for C9: the record formula instantiated on the first Scenario A
record. -/
theorem extension_stats_record_formulas_witness :
    extension_stats (buildExtMap scenA) = .ok scenAOut
    ∧ (⟨"/r/c.txt".toList, 300, 5000, 5000⟩ : SRec).percent
        = round2 ((100 * (((⟨"/r/c.txt".toList, 300, 5000, 5000⟩ : SRec).size : Nat) : ℚ))
            / (groupSizeSum scenARecs : ℚ)) :=
  ⟨by decide,
   (extension_stats_record_formulas.1 (buildExtMap scenA) scenAOut (by decide)
     "txt".toList scenARecs (by decide) ⟨"/r/c.txt".toList, 300, 5000, 5000⟩ (by decide)).1⟩

/-- Key invariant of the extension index: every record sits in the group of
its own path's extension key. -/
def keyInv (d : ExtMap) : Prop :=
  ∀ kv ∈ d, ∀ fi ∈ kv.2, kv.1 = extKey fi.path

theorem dappend_keyInv {d : ExtMap} {k : Str} {v : FileInfo}
    (hd : keyInv d) (hv : k = extKey v.path) : keyInv (dappend d k v) := by
  induction d with
  | nil =>
    intro kv hkv fi hfi
    simp only [dappend, List.mem_singleton] at hkv
    subst hkv
    simp only [List.mem_singleton] at hfi
    subst hfi
    exact hv
  | cons hd0 tl ih =>
    obtain ⟨k1, vs⟩ := hd0
    have htl : keyInv tl := fun kv hkv fi hfi => hd kv (List.mem_cons_of_mem _ hkv) fi hfi
    intro kv hkv fi hfi
    unfold dappend at hkv
    by_cases hk : k1 = k
    · rw [if_pos hk] at hkv
      rcases List.mem_cons.mp hkv with h1 | h2
      · subst h1
        rcases List.mem_append.mp hfi with hin | hlast
        · exact hd (k1, vs) (List.mem_cons_self _ _) fi hin
        · simp only [List.mem_singleton] at hlast
          subst hlast
          rw [hk]
          exact hv
      · exact hd kv (List.mem_cons_of_mem _ h2) fi hfi
    · rw [if_neg hk] at hkv
      rcases List.mem_cons.mp hkv with h1 | h2
      · subst h1
        exact hd (k1, vs) (List.mem_cons_self _ _) fi hfi
      · exact ih htl kv h2 fi hfi

theorem buildExtMap_keyInv (entries : List Entry) : keyInv (buildExtMap entries) := by
  have hgen : ∀ (es : List Entry) (d : ExtMap), keyInv d → keyInv (es.foldl addEntry d) := by
    intro es
    induction es with
    | nil => intro d hd; exact hd
    | cons e tl ih =>
      intro d hd
      simp only [List.foldl_cons]
      apply ih
      unfold addEntry
      by_cases h1 : e.denied
      · rw [if_pos h1]; exact hd
      · rw [if_neg h1]
        by_cases h2 : e.isFile
        · rw [if_pos h2]
          exact dappend_keyInv hd rfl
        · rw [if_neg h2]; exact hd
  exact hgen entries [] (by intro kv hkv; cases hkv)

/-- C7 amended: every file indexed by get_ext_map is keyed by the splitext
extension of its path: the key never contains '.' or '/', is empty when the
file name has no '.', equals the substring after the file name's final '.'
when some character of the stem is not a dot, but is empty for names whose
dots are all leading (dotfiles), rather than the substring after the final
dot. -/
theorem extKey_characterization :
    ∀ (entries : List Entry) (k : Str) (files : List FileInfo),
      (k, files) ∈ buildExtMap entries → ∀ fi ∈ files,
        k = extKey fi.path
        ∧ '.' ∉ k ∧ '/' ∉ k
        ∧ ('.' ∉ afterLastSep fi.path → k = [])
        ∧ (∀ stem ext1, afterLastSep fi.path = stem ++ '.' :: ext1 → '.' ∉ ext1 →
            (∃ c0 ∈ stem, c0 ≠ '.') → k = ext1)
        ∧ ('.' ∉ (afterLastSep fi.path).dropWhile (fun c => c == '.') → k = []) := by
  intro entries k files hmem fi hfi
  have hkey : k = extKey fi.path := buildExtMap_keyInv entries (k, files) hmem fi hfi
  subst hkey
  refine ⟨rfl, (extKey_no_dot_no_sep _).1, (extKey_no_dot_no_sep _).2, ?_, ?_, ?_⟩
  · intro hnd
    rw [extKey_eq_basename]
    exact extKey_of_no_dot hnd
  · intro stem ext1 hdecomp hext hst
    rw [extKey_eq_basename, hdecomp]
    exact extKey_stem_ext (hdecomp ▸ afterLastSep_no_sep fi.path) hext hst
  · intro hdot
    rw [extKey_eq_basename]
    exact extKey_dotfile (afterLastSep_no_sep fi.path) hdot

/-- C7 counterexample: for the dotfile /home/.bashrc the computed group key
is empty, while the substring of the file name after its final '.' is
"bashrc": the two disagree. -/
theorem extKey_dotfile_counterexample :
    extKey "/home/.bashrc".toList = []
    ∧ claimedKey (afterLastSep "/home/.bashrc".toList) = "bashrc".toList
    ∧ extKey "/home/.bashrc".toList
        ≠ claimedKey (afterLastSep "/home/.bashrc".toList) :=
  ⟨by decide, by decide, by decide⟩

/-- Scenario A group contents, in scan order. -/
def scenAFiles : List FileInfo :=
  [⟨"/r/a.txt".toList, 100⟩, ⟨"/r/b.txt".toList, 200⟩, ⟨"/r/c.txt".toList, 300⟩]

/-- Witness for the C7 amended theorem, applied to a concrete index. -/
theorem extKey_characterization_witness :
    "txt".toList = extKey "/r/a.txt".toList ∧ '.' ∉ "txt".toList :=
  have h := extKey_characterization scenA "txt".toList scenAFiles (by decide)
    ⟨"/r/a.txt".toList, 100⟩ (by decide)
  ⟨h.1, h.2.1⟩

/-- C8: get_ext_map memoizes per path: after one call for a path, a second
call with the same path returns the identical mapping and leaves the state
unchanged, without consulting the scanner (the second call may even use a
different scanner). -/
theorem get_ext_map_memoizes (scan scan2 : Str → List Entry) (st : FM) (dir : Str) :
    get_ext_map scan2 (get_ext_map scan st dir).2 dir = get_ext_map scan st dir := by
  cases hl : lookupA st.extdicts dir with
  | some m =>
    have h1 : get_ext_map scan st dir = (m, st) := by
      unfold get_ext_map
      rw [hl]
    rw [h1]
    unfold get_ext_map
    rw [hl]
  | none =>
    have h1 : get_ext_map scan st dir
        = (buildExtMap (scan dir),
           ⟨st.path, st.extdicts ++ [(dir, buildExtMap (scan dir))]⟩) := by
      unfold get_ext_map
      rw [hl]
    rw [h1]
    unfold get_ext_map
    dsimp only
    rw [lookupA_append_of_none _ hl]
    simp [lookupA]

/-! Compression estimator (fmgr.py lines 181-210).  compress_file opens the
fixed transient archive name 'sample.zip' for writing (creating the file on
disk), writes the single entry, leaves the with-block, and only then checks
for and removes the artifact.  If the write raises, the with-block closes
the archive and the exception propagates before the removal line runs.  The
measurement function stands for what the zip records for the entry:
measure p = some (file_size, compress_size), or none when zf.write raises. -/

/-- State of the file system as far as the estimator touches it: whether
the transient artifact sample.zip currently exists. -/
structure Zfs where
  sampleZip : Bool
deriving DecidableEq, Repr

/-- compress_file (fmgr.py lines 181-187).  Success removes sample.zip and
returns the recorded (file_size, compress_size); failure of the write
propagates (error) with sample.zip still on disk. -/
def compress_file (measure : Str → Option (Nat × Nat)) (p : Str) (_fs : Zfs) :
    Except Zfs ((Nat × Nat) × Zfs) :=
  match measure p with
  | none => .error ⟨true⟩
  | some r => .ok (r, ⟨false⟩)

/-- C3 counterexample: when the archive write raises, compress_file
propagates the exception and the transient sample.zip still exists, so
deletion did not occur on this exit path. -/
theorem compress_file_failure_leaves_artifact :
    compress_file (fun _ => none) "/r/f.bin".toList ⟨false⟩ = .error ⟨true⟩
    ∧ (⟨true⟩ : Zfs).sampleZip = true :=
  ⟨rfl, rfl⟩

/-- C3 amended: compress_file deletes the transient artifact on the
successful exit path, but on the failure path (the archive write raises)
the artifact is left on disk when the exception propagates. -/
theorem compress_file_cleanup (measure : Str → Option (Nat × Nat)) (p : Str) (fs0 : Zfs) :
    (∀ r fs2, compress_file measure p fs0 = .ok (r, fs2) → fs2.sampleZip = false)
    ∧ (∀ fs2, compress_file measure p fs0 = .error fs2 → fs2.sampleZip = true) := by
  constructor
  · intro r fs2 h
    unfold compress_file at h
    cases hm : measure p with
    | none => rw [hm] at h; cases h
    | some v =>
      rw [hm] at h
      injection h with h
      have : fs2 = ⟨false⟩ := congrArg Prod.snd h |>.symm
      rw [this]
  · intro fs2 h
    unfold compress_file at h
    cases hm : measure p with
    | none =>
      rw [hm] at h
      injection h with h
      rw [← h]
    | some v => rw [hm] at h; cases h

/-- Witness for the C3 amended theorem at a concrete successful call. -/
theorem compress_file_cleanup_witness :
    compress_file (fun _ => some (10, 4)) "/r/f.bin".toList ⟨false⟩ = .ok ((10, 4), ⟨false⟩)
    ∧ (⟨false⟩ : Zfs).sampleZip = false :=
  ⟨rfl,
   (compress_file_cleanup (fun _ => some (10, 4)) "/r/f.bin".toList ⟨false⟩).1
     (10, 4) ⟨false⟩ rfl⟩

/-- Summary record per extension (class ExtInfo, fmgr.py lines 41-54). -/
structure ExtInfo where
  ex : Str
  nfiles : Nat
  size : Nat
  comp_size : Nat
  diff : ℤ
  diff_percent : ℚ
deriving DecidableEq, Repr

/-- ExtInfo.__init__ (fmgr.py lines 45-51): stores the totals and derives
diff = size - comp_size and diff_percent = 100*diff/size; the division
raises ZeroDivisionError when size is 0 (modelled as none). -/
def ExtInfo.init (ex1 : Str) (nfiles size comp_size : Nat) : Option ExtInfo :=
  if size = 0 then none
  else some ⟨ex1, nfiles, size, comp_size, (size : ℤ) - (comp_size : ℤ),
    100 * ((size : ℚ) - (comp_size : ℚ)) / (size : ℚ)⟩

/-- The 100 MB printing threshold (MB = 2**20, fmgr.py lines 17 and 206). -/
def MB : ℤ := 2 ^ 20

/-- Per-group measurement loop of compress_report (fmgr.py lines 196-201):
accumulate the zip-recorded file_size and compress_size over the group,
threading the transient-artifact state; a compress_file exception aborts. -/
def groupMeasure (measure : Str → Option (Nat × Nat)) :
    List FileInfo → Zfs → Except Unit ((Nat × Nat) × Zfs)
  | [], fs => .ok ((0, 0), fs)
  | f :: rest, fs =>
    match compress_file measure f.path fs with
    | .error _ => .error ()
    | .ok (r, fs1) =>
      match groupMeasure measure rest fs1 with
      | .error e => .error e
      | .ok (ts, fs2) => .ok ((r.1 + ts.1, r.2 + ts.2), fs2)

/-- First phase of compress_report (fmgr.py lines 194-203): build one
ExtInfo per extension group. -/
def extInfoPass (measure : Str → Option (Nat × Nat)) :
    ExtMap → Zfs → Except Unit (List ExtInfo × Zfs)
  | [], fs => .ok ([], fs)
  | (ext1, files) :: rest, fs =>
    match groupMeasure measure files fs with
    | .error e => .error e
    | .ok (ts, fs1) =>
      match ExtInfo.init ext1 files.length ts.1 ts.2 with
      | none => .error ()
      | some ei =>
        match extInfoPass measure rest fs1 with
        | .error e => .error e
        | .ok (eis, fs2) => .ok (ei :: eis, fs2)

/-- compress_report (fmgr.py lines 189-210): build all ExtInfo summaries and
report exactly those whose diff exceeds 100 MB. -/
def compress_report (measure : Str → Option (Nat × Nat)) (idx : ExtMap) (fs : Zfs) :
    Except Unit (List ExtInfo × Zfs) :=
  match extInfoPass measure idx fs with
  | .error e => .error e
  | .ok (eis, fs1) => .ok (eis.filter (fun ei => decide (100 * MB < ei.diff)), fs1)

theorem extinfo_init_some {ex1 : Str} {n s c : Nat} {ei : ExtInfo}
    (h : ExtInfo.init ex1 n s c = some ei) :
    s ≠ 0 ∧ ei.size = s ∧ ei.comp_size = c ∧ ei.diff = (s : ℤ) - (c : ℤ)
      ∧ ei.diff_percent = 100 * ((s : ℚ) - (c : ℚ)) / (s : ℚ) := by
  unfold ExtInfo.init at h
  by_cases hs : s = 0
  · rw [if_pos hs] at h; cases h
  · rw [if_neg hs] at h
    injection h with h
    subst h
    exact ⟨hs, rfl, rfl, rfl, rfl⟩

theorem extInfoPass_mem {measure : Str → Option (Nat × Nat)} :
    ∀ {idx : ExtMap} {fs : Zfs} {eis : List ExtInfo} {fs2 : Zfs},
      extInfoPass measure idx fs = .ok (eis, fs2) →
      ∀ ei ∈ eis, ∃ ex1 n s c, ExtInfo.init ex1 n s c = some ei := by
  intro idx
  induction idx with
  | nil =>
    intro fs eis fs2 h ei hei
    injection h with h
    have : eis = [] := (congrArg Prod.fst h).symm
    rw [this] at hei
    cases hei
  | cons kv rest ih =>
    intro fs eis fs2 h ei hei
    obtain ⟨ext1, files⟩ := kv
    unfold extInfoPass at h
    cases hg : groupMeasure measure files fs with
    | error e => rw [hg] at h; cases h
    | ok v =>
      rw [hg] at h
      obtain ⟨ts, fs1⟩ := v
      dsimp only at h
      cases hinit : ExtInfo.init ext1 files.length ts.1 ts.2 with
      | none => rw [hinit] at h; cases h
      | some ei0 =>
        rw [hinit] at h
        dsimp only at h
        cases hrest : extInfoPass measure rest fs1 with
        | error e => rw [hrest] at h; cases h
        | ok w =>
          rw [hrest] at h
          obtain ⟨eis0, fs3⟩ := w
          dsimp only at h
          injection h with h
          have heis : eis = ei0 :: eis0 := (congrArg Prod.fst h).symm
          rw [heis] at hei
          rcases List.mem_cons.mp hei with h1 | h2
          · subst h1
            exact ⟨ext1, files.length, ts.1, ts.2, hinit⟩
          · exact ih hrest ei h2

/-- C6 counterexample: constructing the summary for an extension whose
aggregate original size is 0 divides by zero and raises, both at the
constructor and through compress_report on a group of zero-byte files. -/
theorem extinfo_zero_size_raises :
    ExtInfo.init "txt".toList 1 0 0 = none
    ∧ compress_report (fun _ => some (0, 0))
        [("txt".toList, [⟨"/r/e.txt".toList, 0⟩])] ⟨false⟩ = .error () :=
  ⟨rfl, rfl⟩

/-- C6 amended: an ExtInfo built with nonzero original size satisfies
diff = original − compressed and diffPercent = 100·diff/original, and every
summary compress_report reports satisfies those equations, has nonzero
size, and has diff over the 100 MB threshold; but a zero aggregate original
size is not skipped: the constructor raises ZeroDivisionError. -/
theorem extinfo_fields :
    (∀ (ex1 : Str) (n s c : Nat), s ≠ 0 →
      ∃ ei, ExtInfo.init ex1 n s c = some ei
        ∧ ei.size = s ∧ ei.comp_size = c
        ∧ ei.diff = (s : ℤ) - (c : ℤ)
        ∧ ei.diff_percent = 100 * ((ei.diff : ℤ) : ℚ) / ((ei.size : Nat) : ℚ))
    ∧ (∀ (ex1 : Str) (n c : Nat), ExtInfo.init ex1 n 0 c = none)
    ∧ (∀ measure idx fs out fs2, compress_report measure idx fs = .ok (out, fs2) →
        ∀ ei ∈ out, ei.diff = (ei.size : ℤ) - (ei.comp_size : ℤ)
          ∧ ei.diff_percent = 100 * ((ei.diff : ℤ) : ℚ) / ((ei.size : Nat) : ℚ)
          ∧ ei.size ≠ 0 ∧ 100 * MB < ei.diff) := by
  refine ⟨?_, ?_, ?_⟩
  · intro ex1 n s c hs
    refine ⟨⟨ex1, n, s, c, (s : ℤ) - (c : ℤ),
      100 * ((s : ℚ) - (c : ℚ)) / (s : ℚ)⟩, ?_, rfl, rfl, rfl, ?_⟩
    · unfold ExtInfo.init
      rw [if_neg hs]
    · push_cast
      ring
  · intro ex1 n c
    unfold ExtInfo.init
    rw [if_pos rfl]
  · intro measure idx fs out fs2 h ei hei
    unfold compress_report at h
    cases hp : extInfoPass measure idx fs with
    | error e => rw [hp] at h; cases h
    | ok v =>
      rw [hp] at h
      obtain ⟨eis, fs1⟩ := v
      injection h with h
      have hout : out = eis.filter (fun ei => decide (100 * MB < ei.diff)) :=
        (congrArg Prod.fst h).symm
      rw [hout] at hei
      have hmem := List.mem_of_mem_filter hei
      have hdiff : 100 * MB < ei.diff := by
        have := List.of_mem_filter hei
        simpa using this
      obtain ⟨ex1, n, s, c, hinit⟩ := extInfoPass_mem hp ei hmem
      obtain ⟨hs, hsz, hcs, hd, hdp⟩ := extinfo_init_some hinit
      refine ⟨?_, ?_, ?_, hdiff⟩
      · rw [hd, hsz, hcs]
      · rw [hdp, hd, hsz]
        push_cast
        ring
      · rw [hsz]; exact hs

/-- Witness for the C6 amended theorem at a concrete nonzero size. -/
theorem extinfo_fields_witness :
    (10 : Nat) ≠ 0
    ∧ ∃ ei, ExtInfo.init "txt".toList 1 10 4 = some ei
        ∧ ei.size = 10 ∧ ei.comp_size = 4
        ∧ ei.diff = (10 : ℤ) - (4 : ℤ)
        ∧ ei.diff_percent = 100 * ((ei.diff : ℤ) : ℚ) / ((ei.size : Nat) : ℚ) :=
  ⟨by decide, extinfo_fields.1 "txt".toList 1 10 4 (by decide)⟩

/-! Duplicate detector (fmgr.py lines 124-143).  generate_hash streams a
file through a digest in 64 KiB blocks; find_duplicates groups the paths by
digest (defaultdict(list), insertion order) and reports the groups with
more than one member.  The digest machinery (hashlib.sha1 update and
hexdigest) is abstracted as parameters: upd is the state update with one
block, ini the fresh state, dig the final digest. -/

/-- Read block size (64 KiB, fmgr.py line 124). -/
def BLOCKSIZE : Nat := 64 * 1024

/-- Fuelled splitting into blocks; the fuel is an upper bound on the number
of non-empty reads. -/
def chunksAux (bs : Nat) : Nat → List Nat → List (List Nat)
  | 0, _ => []
  | _, [] => []
  | fuel + 1, l => l.take bs :: chunksAux bs fuel (l.drop bs)

/-- Successive bs-byte blocks of a byte stream, as the read loop of
generate_hash produces them. -/
def chunks (bs : Nat) (l : List Nat) : List (List Nat) := chunksAux bs l.length l

/-- generate_hash (fmgr.py lines 125-132): fold the digest update over the
64 KiB blocks of the content and take the final digest. -/
def generate_hash {σ D : Type} (upd : σ → List Nat → σ) (ini : σ) (dig : σ → D)
    (content : List Nat) : D :=
  dig ((chunks BLOCKSIZE content).foldl upd ini)

/-- The dict_hash of find_duplicates: paths grouped by digest,
in first-seen order. -/
def hashDict {σ D : Type} [DecidableEq D] (upd : σ → List Nat → σ) (ini : σ)
    (dig : σ → D) (files : List (Str × List Nat)) : List (D × List Str) :=
  files.foldl (fun d pc => dappend d (generate_hash upd ini dig pc.2) pc.1) []

/-- find_duplicates (fmgr.py lines 134-143): the digest groups with more
than one member, in dictionary order. -/
def find_duplicates {σ D : Type} [DecidableEq D] (upd : σ → List Nat → σ) (ini : σ)
    (dig : σ → D) (files : List (Str × List Nat)) : List (List Str) :=
  ((hashDict upd ini dig files).map Prod.snd).filter (fun g => decide (1 < g.length))

theorem lookupA_dappend_self {K V : Type} [DecidableEq K] :
    ∀ (d : List (K × List V)) (k : K) (v : V),
      ∃ g, lookupA (dappend d k v) k = some g ∧ v ∈ g := by
  intro d
  induction d with
  | nil =>
    intro k v
    exact ⟨[v], by simp [dappend, lookupA], List.mem_singleton_self v⟩
  | cons hd tl ih =>
    intro k v
    obtain ⟨k1, vs⟩ := hd
    by_cases hk : k1 = k
    · refine ⟨vs ++ [v], ?_, by simp⟩
      simp only [dappend, if_pos hk, lookupA]
    · obtain ⟨g, hg, hv⟩ := ih k v
      refine ⟨g, ?_, hv⟩
      simp only [dappend, if_neg hk, lookupA]
      exact hg

theorem lookupA_dappend_mono {K V : Type} [DecidableEq K] :
    ∀ (d : List (K × List V)) (k k2 : K) (v2 : V) (g : List V),
      lookupA d k = some g →
      ∃ g2, lookupA (dappend d k2 v2) k = some g2 ∧ ∀ x ∈ g, x ∈ g2 := by
  intro d
  induction d with
  | nil =>
    intro k k2 v2 g h
    simp [lookupA] at h
  | cons hd tl ih =>
    intro k k2 v2 g h
    obtain ⟨k1, vs⟩ := hd
    by_cases h2 : k1 = k2
    · rw [show dappend ((k1, vs) :: tl) k2 v2 = (k1, vs ++ [v2]) :: tl from by
        simp [dappend, h2]]
      by_cases hk : k1 = k
      · simp only [lookupA, if_pos hk] at h ⊢
        injection h with h
        exact ⟨vs ++ [v2], rfl, fun x hx => List.mem_append_left _ (h ▸ hx)⟩
      · simp only [lookupA, if_neg hk] at h ⊢
        exact ⟨g, h, fun x hx => hx⟩
    · rw [show dappend ((k1, vs) :: tl) k2 v2 = (k1, vs) :: dappend tl k2 v2 from by
        simp [dappend, h2]]
      by_cases hk : k1 = k
      · simp only [lookupA, if_pos hk] at h ⊢
        injection h with h
        exact ⟨vs, rfl, fun x hx => h ▸ hx⟩
      · simp only [lookupA, if_neg hk] at h ⊢
        exact ih k k2 v2 g h

theorem foldl_dappend_mono {K V : Type} [DecidableEq K] (key : Str × List Nat → K)
    (val : Str × List Nat → V) :
    ∀ (l : List (Str × List Nat)) (d : List (K × List V)) (k : K) (g : List V),
      lookupA d k = some g →
      ∃ g2, lookupA (l.foldl (fun d a => dappend d (key a) (val a)) d) k = some g2
        ∧ ∀ x ∈ g, x ∈ g2 := by
  intro l
  induction l with
  | nil => intro d k g h; exact ⟨g, h, fun x hx => hx⟩
  | cons a tl ih =>
    intro d k g h
    obtain ⟨g1, hg1, hsub1⟩ := lookupA_dappend_mono d k (key a) (val a) g h
    obtain ⟨g2, hg2, hsub2⟩ := ih (dappend d (key a) (val a)) k g1 hg1
    exact ⟨g2, hg2, fun x hx => hsub2 x (hsub1 x hx)⟩

theorem foldl_dappend_mem {K V : Type} [DecidableEq K] (key : Str × List Nat → K)
    (val : Str × List Nat → V) :
    ∀ (l : List (Str × List Nat)) (d : List (K × List V)) (a : Str × List Nat),
      a ∈ l →
      ∃ g, lookupA (l.foldl (fun d a => dappend d (key a) (val a)) d) (key a) = some g
        ∧ val a ∈ g := by
  intro l
  induction l with
  | nil => intro d a h; cases h
  | cons a0 tl ih =>
    intro d a h
    rcases List.mem_cons.mp h with h1 | h2
    · subst h1
      obtain ⟨g1, hg1, hv⟩ := lookupA_dappend_self d (key a) (val a)
      obtain ⟨g2, hg2, hsub⟩ := foldl_dappend_mono key val tl
        (dappend d (key a) (val a)) (key a) g1 hg1
      exact ⟨g2, by simpa using hg2, hsub _ hv⟩
    · obtain ⟨g, hg, hv⟩ := ih (dappend d (key a0) (val a0)) a h2
      exact ⟨g, by simpa using hg, hv⟩

/-- Scenario B content shared by a.txt and b.txt. -/
def contentAB : List Nat := [1, 2, 3]

/-- Scenario B content of c.txt. -/
def contentC : List Nat := [9, 9]

/-- Scenario B regular files: a.txt and b.txt byte-identical, c.txt
different. -/
def scenB : List (Str × List Nat) :=
  [("/r/a.txt".toList, contentAB),
   ("/r/b.txt".toList, contentAB),
   ("/r/c.txt".toList, contentC)]

/-- C4: files with byte-identical content always receive the same
fingerprint and land in the same hash group; and in Scenario B, whenever
the two distinct contents have distinct digests, the duplicate report is
exactly one group of size two holding a.txt and b.txt, with c.txt in no
reported group. -/
theorem find_duplicates_content_grouping :
    (∀ (σ D : Type) [DecidableEq D] (upd : σ → List Nat → σ) (ini : σ) (dig : σ → D)
        (files : List (Str × List Nat)) (p q : Str) (c : List Nat),
      (p, c) ∈ files → (q, c) ∈ files →
      ∃ g, lookupA (hashDict upd ini dig files) (generate_hash upd ini dig c) = some g
        ∧ p ∈ g ∧ q ∈ g)
    ∧ (∀ (σ D : Type) [DecidableEq D] (upd : σ → List Nat → σ) (ini : σ) (dig : σ → D),
      generate_hash upd ini dig contentAB ≠ generate_hash upd ini dig contentC →
      find_duplicates upd ini dig scenB = [["/r/a.txt".toList, "/r/b.txt".toList]]) := by
  constructor
  · intro σ D inst upd ini dig files p q c hp hq
    obtain ⟨g1, hg1, hpg⟩ := foldl_dappend_mem
      (fun pc => generate_hash upd ini dig pc.2) Prod.fst files [] (p, c) hp
    obtain ⟨g2, hg2, hqg⟩ := foldl_dappend_mem
      (fun pc => generate_hash upd ini dig pc.2) Prod.fst files [] (q, c) hq
    have hgg : g1 = g2 := by
      have := hg1.symm.trans hg2
      exact Option.some.inj this
    exact ⟨g1, hg1, hpg, hgg ▸ hqg⟩
  · intro σ D inst upd ini dig hne
    have h1 : hashDict upd ini dig scenB
        = [(generate_hash upd ini dig contentAB,
            ["/r/a.txt".toList, "/r/b.txt".toList]),
           (generate_hash upd ini dig contentC, ["/r/c.txt".toList])] := by
      unfold hashDict scenB
      simp only [List.foldl_cons, List.foldl_nil]
      rw [show dappend ([] : List (D × List Str))
          (generate_hash upd ini dig ("/r/a.txt".toList, contentAB).2)
          ("/r/a.txt".toList, contentAB).1
          = [(generate_hash upd ini dig contentAB, ["/r/a.txt".toList])] from rfl]
      rw [show dappend [(generate_hash upd ini dig contentAB, ["/r/a.txt".toList])]
          (generate_hash upd ini dig ("/r/b.txt".toList, contentAB).2)
          ("/r/b.txt".toList, contentAB).1
          = [(generate_hash upd ini dig contentAB,
              ["/r/a.txt".toList, "/r/b.txt".toList])] from by
        simp [dappend]]
      rw [show dappend [(generate_hash upd ini dig contentAB,
              ["/r/a.txt".toList, "/r/b.txt".toList])]
          (generate_hash upd ini dig ("/r/c.txt".toList, contentC).2)
          ("/r/c.txt".toList, contentC).1
          = [(generate_hash upd ini dig contentAB,
              ["/r/a.txt".toList, "/r/b.txt".toList]),
             (generate_hash upd ini dig contentC, ["/r/c.txt".toList])] from by
        simp only [dappend]
        rw [if_neg hne]]
    unfold find_duplicates
    rw [h1]
    rfl

/-- Concatenating digest state used to witness the duplicate-detector
theorem. -/
def catUpd : List Nat → List Nat → List Nat := fun s c => s ++ c

/-- Witness for C4: the grouping facts instantiated with a concrete digest
on Scenario B. -/
theorem find_duplicates_content_grouping_witness :
    (∃ g, lookupA (hashDict catUpd ([] : List Nat) id scenB)
        (generate_hash catUpd ([] : List Nat) id contentAB) = some g
      ∧ "/r/a.txt".toList ∈ g ∧ "/r/b.txt".toList ∈ g)
    ∧ find_duplicates catUpd ([] : List Nat) id scenB
        = [["/r/a.txt".toList, "/r/b.txt".toList]] :=
  ⟨find_duplicates_content_grouping.1 (List Nat) (List Nat) catUpd [] id scenB
      "/r/a.txt".toList "/r/b.txt".toList contentAB (by decide) (by decide),
   find_duplicates_content_grouping.2 (List Nat) (List Nat) catUpd [] id (by decide)⟩

/-! Lossy reduction estimator: jpg_quality_reduce_report (fmgr.py lines
212-240).  For each immediate subdirectory, the report obtains the (cached)
extension index, subscripts it at the keys "jpg", "jpeg" and "JPG" (each
subscript on the defaultdict inserts the key with an empty list when
absent, and the cache aliases the same dict object, so those insertions
persist in the cache — modelled by writing the grown dict back into the
cache), decodes and re-encodes each file at the fixed quality, drops files
raising PIL.UnidentifiedImageError from the count and the totals, and
emits a summary only when num_files stays nonzero.  The decode field of the
world maps a path to the re-encoded size at that quality, or none when the
file fails to decode as a valid image. -/

/-- World as the jpg report sees it: the iterdir listing of the root (path,
is_dir), the recursive scanner, and the decode-and-save measurement. -/
structure JWorld where
  subdirs : List (Str × Bool)
  scan : Str → List Entry
  decode : Str → Option Nat

/-- Per-directory summary printed by the report. -/
structure Summary where
  dir : Str
  count : Nat
  before : Nat
  after : Nat
  dr_percent : ℤ
deriving DecidableEq, Repr

/-- Extension key "jpg". -/
def jpgKey : Str := "jpg".toList

/-- Extension key "jpeg". -/
def jpegKey : Str := "jpeg".toList

/-- Extension key "JPG" (case variants are separate keys). -/
def bigJpgKey : Str := "JPG".toList

/-- The three defaultdict subscripts em[x] for x in jpg_extensions, in
evaluation order, returning the three lists and the grown dict. -/
def emLookups (em : ExtMap) :
    (List FileInfo × List FileInfo × List FileInfo) × ExtMap :=
  let r1 := dgetD em jpgKey
  let r2 := dgetD r1.2 jpegKey
  let r3 := dgetD r2.2 bigJpgKey
  ((r1.1, r2.1, r3.1), r3.2)

/-- The jpg-family records of a subdirectory, in the loop's order. -/
def jpgFilesOf (w : JWorld) (st : FM) (d : Str) : List FileInfo :=
  let lk := emLookups (get_ext_map w.scan st d).1
  lk.1.1 ++ lk.1.2.1 ++ lk.1.2.2

/-- One iteration of the per-file loop: a successful decode adds the sizes,
a failed decode decrements num_files. -/
def jstep (w : JWorld) (acc : Nat × Nat × Nat) (fi : FileInfo) : Nat × Nat × Nat :=
  match w.decode fi.path with
  | some a => (acc.1, acc.2.1 + fi.size, acc.2.2 + a)
  | none => (acc.1 - 1, acc.2.1, acc.2.2)

/-- Body of the subdirectory loop: index lookup (with the aliased cache
write-back), per-file processing, and conditional summary emission; the
error stands for the ZeroDivisionError of the ratio when total_before is 0
with num_files nonzero. -/
def processDir (w : JWorld) (st : FM) (d : Str) : Except Unit (Option Summary × FM) :=
  let st1 := (get_ext_map w.scan st d).2
  let em3 := (emLookups (get_ext_map w.scan st d).1).2
  let jfiles := jpgFilesOf w st d
  let res := jfiles.foldl (jstep w) (jfiles.length, 0, 0)
  let st2 : FM := ⟨st1.path, updateA st1.extdicts d em3⟩
  if res.1 = 0 then .ok (none, st2)
  else if res.2.1 = 0 then .error ()
  else .ok (some ⟨d, res.1, res.2.1, res.2.2,
      rheZ (100 * ((res.2.1 : ℤ) - (res.2.2 : ℤ))) res.2.1⟩, st2)

/-- The subdirectory loop of the report (non-directories are skipped). -/
def jpgAux (w : JWorld) : List (Str × Bool) → FM → Except Unit (List Summary × FM)
  | [], st => .ok ([], st)
  | (d, isd) :: rest, st =>
    if isd then
      match processDir w st d with
      | .error e => .error e
      | .ok (os, st1) =>
        match jpgAux w rest st1 with
        | .error e => .error e
        | .ok (l, st2) => .ok (os.toList ++ l, st2)
    else jpgAux w rest st

/-- jpg_quality_reduce_report (fmgr.py lines 212-240): run the loop over
the root's iterdir entries. -/
def jpg_quality_reduce_report (w : JWorld) (st : FM) :
    Except Unit (List Summary × FM) :=
  jpgAux w w.subdirs st

/-- Number of files of a directory that decode successfully. -/
def countValid (w : JWorld) (l : List FileInfo) : Nat :=
  (l.filter (fun fi => (w.decode fi.path).isSome)).length

/-- Total on-disk size of the successfully decoded files. -/
def validBefore (w : JWorld) (l : List FileInfo) : Nat :=
  ((l.filter (fun fi => (w.decode fi.path).isSome)).map FileInfo.size).sum

/-- Total re-encoded size of the successfully decoded files. -/
def validAfter (w : JWorld) (l : List FileInfo) : Nat :=
  (l.filterMap (fun fi => w.decode fi.path)).sum

theorem jfold (w : JWorld) : ∀ (l : List FileInfo) (n b a : Nat),
    l.foldl (jstep w) (n, b, a)
      = (n - (l.filter (fun fi => (w.decode fi.path).isNone)).length,
         b + validBefore w l, a + validAfter w l) := by
  intro l
  induction l with
  | nil =>
    intro n b a
    simp [validBefore, validAfter]
  | cons fi tl ih =>
    intro n b a
    cases hd : w.decode fi.path with
    | some v =>
      have hstep : jstep w (n, b, a) fi = (n, b + fi.size, a + v) := by
        simp [jstep, hd]
      simp only [List.foldl_cons, hstep, ih]
      have h1 : (fi :: tl).filter (fun fi => (w.decode fi.path).isNone)
          = tl.filter (fun fi => (w.decode fi.path).isNone) := by
        simp [List.filter_cons, hd]
      have h2 : validBefore w (fi :: tl) = fi.size + validBefore w tl := by
        simp [validBefore, List.filter_cons, hd]
      have h3 : validAfter w (fi :: tl) = v + validAfter w tl := by
        simp [validAfter, List.filterMap_cons, hd]
      rw [h1, h2, h3]
      simp only [Prod.mk.injEq, and_true, true_and]
      first | trivial | omega
    | none =>
      have hstep : jstep w (n, b, a) fi = (n - 1, b, a) := by
        simp [jstep, hd]
      simp only [List.foldl_cons, hstep, ih]
      have h1 : ((fi :: tl).filter (fun fi => (w.decode fi.path).isNone)).length
          = (tl.filter (fun fi => (w.decode fi.path).isNone)).length + 1 := by
        simp [List.filter_cons, hd]
      have h2 : validBefore w (fi :: tl) = validBefore w tl := by
        simp [validBefore, List.filter_cons, hd]
      have h3 : validAfter w (fi :: tl) = validAfter w tl := by
        simp [validAfter, List.filterMap_cons, hd]
      rw [h1, h2, h3]
      simp only [Prod.mk.injEq, and_true, true_and]
      first | trivial | omega

theorem count_valid_add_fail (w : JWorld) : ∀ (l : List FileInfo),
    countValid w l + (l.filter (fun fi => (w.decode fi.path).isNone)).length
      = l.length := by
  intro l
  induction l with
  | nil => simp [countValid]
  | cons fi tl ih =>
    cases hd : w.decode fi.path with
    | some v =>
      have hv : countValid w (fi :: tl) = countValid w tl + 1 := by
        simp [countValid, List.filter_cons, hd]
      have hf : ((fi :: tl).filter (fun fi => (w.decode fi.path).isNone)).length
          = (tl.filter (fun fi => (w.decode fi.path).isNone)).length := by
        simp [List.filter_cons, hd]
      rw [hv, hf]
      simp only [List.length_cons]
      omega
    | none =>
      have hv : countValid w (fi :: tl) = countValid w tl := by
        simp [countValid, List.filter_cons, hd]
      have hf : ((fi :: tl).filter (fun fi => (w.decode fi.path).isNone)).length
          = (tl.filter (fun fi => (w.decode fi.path).isNone)).length + 1 := by
        simp [List.filter_cons, hd]
      rw [hv, hf]
      simp only [List.length_cons]
      omega

/-- Scenario D world: a root with one subdirectory holding two .jpg files,
of which y.jpg fails to decode; the valid x.jpg has size 30 and re-encodes
to 25 bytes. -/
def scenDWorld : JWorld :=
  ⟨[("/r/d".toList, true)],
   fun p => if p = "/r/d".toList then
       [⟨"/r/d/x.jpg".toList, true, 30, false⟩, ⟨"/r/d/y.jpg".toList, true, 99, false⟩]
     else [],
   fun p => if p = "/r/d/x.jpg".toList then some 25 else none⟩

/-- Initial state for the scenarios. -/
def fm0 : FM := ⟨"/r".toList, []⟩

/-- Scenario D expected summary: count 1, sizes of the valid file only. -/
def sD : Summary := ⟨"/r/d".toList, 1, 30, 25, 17⟩

/-- Scenario D final state: the subdirectory's cached index with the three
jpg-family keys present. -/
def stD1 : FM :=
  ⟨"/r".toList,
   [("/r/d".toList,
     [("jpg".toList, [⟨"/r/d/x.jpg".toList, 30⟩, ⟨"/r/d/y.jpg".toList, 99⟩]),
      ("jpeg".toList, []),
      ("JPG".toList, [])])]⟩

/-- C5: files that fail to decode are excluded from the reported count and
from both size totals; a summary is emitted only when at least one file
decoded; and in Scenario D the report yields exactly one summary with
count 1 built only from the valid file's sizes. -/
theorem jpg_report_excludes_invalid :
    (∀ (w : JWorld) (st : FM) (d : Str) (res : Option Summary) (st2 : FM),
      processDir w st d = .ok (res, st2) →
        (countValid w (jpgFilesOf w st d) = 0 → res = none)
        ∧ ∀ s, res = some s →
            s.count = countValid w (jpgFilesOf w st d)
            ∧ s.count ≠ 0
            ∧ s.before = validBefore w (jpgFilesOf w st d)
            ∧ s.after = validAfter w (jpgFilesOf w st d))
    ∧ jpg_quality_reduce_report scenDWorld fm0 = .ok ([sD], stD1) := by
  constructor
  · intro w st d res st2 h
    unfold processDir at h
    dsimp only at h
    rw [jfold w (jpgFilesOf w st d) (jpgFilesOf w st d).length 0 0] at h
    dsimp only at h
    simp only [Nat.zero_add] at h
    have hcv : (jpgFilesOf w st d).length
        - ((jpgFilesOf w st d).filter (fun fi => (w.decode fi.path).isNone)).length
        = countValid w (jpgFilesOf w st d) := by
      have := count_valid_add_fail w (jpgFilesOf w st d)
      omega
    rw [hcv] at h
    constructor
    · intro h0
      rw [if_pos h0] at h
      injection h with h
      exact (congrArg Prod.fst h).symm
    · intro s hs
      subst hs
      by_cases h0 : countValid w (jpgFilesOf w st d) = 0
      · rw [if_pos h0] at h
        injection h with h
        cases congrArg Prod.fst h
      · rw [if_neg h0] at h
        by_cases hb : validBefore w (jpgFilesOf w st d) = 0
        · rw [if_pos hb] at h
          cases h
        · rw [if_neg hb] at h
          injection h with h
          have hres := congrArg Prod.fst h
          have hsome := Option.some.inj hres
          rw [← hsome]
          exact ⟨rfl, h0, rfl, rfl⟩
  · rfl

/-- Witness for C5: the exclusion facts instantiated on Scenario D. -/
theorem jpg_report_excludes_invalid_witness :
    processDir scenDWorld fm0 "/r/d".toList = .ok (some sD, stD1)
    ∧ sD.count = countValid scenDWorld (jpgFilesOf scenDWorld fm0 "/r/d".toList)
    ∧ sD.before = validBefore scenDWorld (jpgFilesOf scenDWorld fm0 "/r/d".toList) :=
  have hpd : processDir scenDWorld fm0 "/r/d".toList = .ok (some sD, stD1) := rfl
  have h := (jpg_report_excludes_invalid.1 scenDWorld fm0 "/r/d".toList
    (some sD) stD1 hpd).2 sD rfl
  ⟨hpd, h.1, h.2.2.1⟩

/-- The three jpg-family keys are all present in an index. -/
def hasKeys3 (m2 : ExtMap) : Prop :=
  (∃ v, lookupA m2 jpgKey = some v)
    ∧ (∃ v, lookupA m2 jpegKey = some v)
    ∧ (∃ v, lookupA m2 bigJpgKey = some v)

theorem dgetD_none_other {K V : Type} [DecidableEq K] {d : List (K × List V)}
    {k k0 : K} (h : lookupA d k0 = none) (hne : k0 ≠ k) :
    lookupA (dgetD d k).2 k0 = none := by
  unfold dgetD
  cases hl : lookupA d k with
  | some vs => simpa using h
  | none =>
    simp only
    rw [lookupA_append_of_none _ h]
    have hkk : k ≠ k0 := fun he => hne he.symm
    simp [lookupA, hkk]

theorem dgetD_inserts_empty {K V : Type} [DecidableEq K] {d : List (K × List V)}
    {k : K} (h : lookupA d k = none) : lookupA (dgetD d k).2 k = some [] := by
  have hp := dgetD_key_present d k
  rw [dgetD_val_of_none h] at hp
  exact hp

theorem emLookups_hasKeys3 (em : ExtMap) : hasKeys3 (emLookups em).2 := by
  unfold emLookups hasKeys3
  dsimp only
  refine ⟨?_, ?_, ?_⟩
  · exact ⟨_, dgetD_preserves bigJpgKey
      (dgetD_preserves jpegKey (dgetD_key_present em jpgKey))⟩
  · exact ⟨_, dgetD_preserves bigJpgKey
      (dgetD_key_present (dgetD em jpgKey).2 jpegKey)⟩
  · exact ⟨_, dgetD_key_present (dgetD (dgetD em jpgKey).2 jpegKey).2 bigJpgKey⟩

theorem emLookups_inserted_empty {em : ExtMap} (k : Str)
    (hk : k = jpgKey ∨ k = jpegKey ∨ k = bigJpgKey)
    (h : lookupA em k = none) : lookupA (emLookups em).2 k = some [] := by
  have hd12 : jpgKey ≠ jpegKey := by decide
  have hd13 : jpgKey ≠ bigJpgKey := by decide
  have hd23 : jpegKey ≠ bigJpgKey := by decide
  unfold emLookups
  dsimp only
  rcases hk with rfl | rfl | rfl
  · exact dgetD_preserves bigJpgKey (dgetD_preserves jpegKey (dgetD_inserts_empty h))
  · have h1 : lookupA (dgetD em jpgKey).2 jpegKey = none :=
      dgetD_none_other h (fun he => hd12 he.symm)
    exact dgetD_preserves bigJpgKey (dgetD_inserts_empty h1)
  · have h1 : lookupA (dgetD em jpgKey).2 bigJpgKey = none :=
      dgetD_none_other h (fun he => hd13 he.symm)
    have h2 : lookupA (dgetD (dgetD em jpgKey).2 jpegKey).2 bigJpgKey = none :=
      dgetD_none_other h1 (fun he => hd23 he.symm)
    exact dgetD_inserts_empty h2

theorem processDir_state {w : JWorld} {st : FM} {d : Str} {res : Option Summary}
    {st2 : FM} (h : processDir w st d = .ok (res, st2)) :
    st2 = ⟨(get_ext_map w.scan st d).2.path,
           updateA (get_ext_map w.scan st d).2.extdicts d
             (emLookups (get_ext_map w.scan st d).1).2⟩ := by
  unfold processDir at h
  dsimp only at h
  by_cases h0 : ((jpgFilesOf w st d).foldl (jstep w)
      ((jpgFilesOf w st d).length, 0, 0)).1 = 0
  · rw [if_pos h0] at h
    injection h with h
    exact (congrArg Prod.snd h).symm
  · rw [if_neg h0] at h
    by_cases hb : ((jpgFilesOf w st d).foldl (jstep w)
        ((jpgFilesOf w st d).length, 0, 0)).2.1 = 0
    · rw [if_pos hb] at h
      cases h
    · rw [if_neg hb] at h
      injection h with h
      exact (congrArg Prod.snd h).symm

theorem processDir_caches {w : JWorld} {st : FM} {d : Str} {res : Option Summary}
    {st2 : FM} (h : processDir w st d = .ok (res, st2)) :
    ∃ m2, lookupA st2.extdicts d = some m2 ∧ hasKeys3 m2
      ∧ ∀ k, (k = jpgKey ∨ k = jpegKey ∨ k = bigJpgKey) →
          lookupA (get_ext_map w.scan st d).1 k = none → lookupA m2 k = some [] := by
  have hst := processDir_state h
  subst hst
  refine ⟨(emLookups (get_ext_map w.scan st d).1).2, ?_, emLookups_hasKeys3 _, ?_⟩
  · exact lookupA_updateA_self _ _ _
  · intro k hk hnone
    exact emLookups_inserted_empty k hk hnone

theorem processDir_preserves {w : JWorld} {st : FM} {d2 : Str} {res : Option Summary}
    {st2 : FM} {d : Str} {m2 : ExtMap}
    (h : processDir w st d2 = .ok (res, st2))
    (hc : lookupA st.extdicts d = some m2) (hk : hasKeys3 m2) :
    ∃ m3, lookupA st2.extdicts d = some m3 ∧ hasKeys3 m3 := by
  have hst := processDir_state h
  subst hst
  by_cases hdd : d2 = d
  · subst hdd
    exact ⟨_, lookupA_updateA_self _ _ _, emLookups_hasKeys3 _⟩
  · rw [lookupA_updateA_other _ _ _ _ hdd]
    exact ⟨m2, get_ext_map_preserves w.scan st d2 hc, hk⟩

theorem jpgAux_ok_keys (w : JWorld) : ∀ (sds : List (Str × Bool)) (st : FM)
    (out : List Summary) (st2 : FM), jpgAux w sds st = .ok (out, st2) →
    (∀ d m2, lookupA st.extdicts d = some m2 → hasKeys3 m2 →
        ∃ m3, lookupA st2.extdicts d = some m3 ∧ hasKeys3 m3)
    ∧ (∀ d, (d, true) ∈ sds →
        ∃ m3, lookupA st2.extdicts d = some m3 ∧ hasKeys3 m3) := by
  intro sds
  induction sds with
  | nil =>
    intro st out st2 h
    injection h with h
    have hst : st2 = st := (congrArg Prod.snd h).symm
    subst hst
    constructor
    · intro d m2 hc hk
      exact ⟨m2, hc, hk⟩
    · intro d hd
      cases hd
  | cons sd rest ih =>
    intro st out st2 h
    obtain ⟨d0, isd⟩ := sd
    unfold jpgAux at h
    cases isd with
    | false =>
      rw [if_neg (by decide : ¬ (false = true))] at h
      obtain ⟨ihA, ihB⟩ := ih st out st2 h
      constructor
      · exact ihA
      · intro d hd
        rcases List.mem_cons.mp hd with h1 | h2
        · cases congrArg Prod.snd h1
        · exact ihB d h2
    | true =>
      rw [if_pos rfl] at h
      cases hpd : processDir w st d0 with
      | error e => rw [hpd] at h; cases h
      | ok v =>
        rw [hpd] at h
        obtain ⟨os, st1⟩ := v
        dsimp only at h
        cases haux : jpgAux w rest st1 with
        | error e => rw [haux] at h; cases h
        | ok v2 =>
          rw [haux] at h
          obtain ⟨l, st3⟩ := v2
          dsimp only at h
          injection h with h
          have hst : st2 = st3 := (congrArg Prod.snd h).symm
          subst hst
          obtain ⟨ihA, ihB⟩ := ih st1 l st2 haux
          constructor
          · intro d m2 hc hk
            obtain ⟨m3, hm3, hk3⟩ := processDir_preserves hpd hc hk
            exact ihA d m3 hm3 hk3
          · intro d hd
            rcases List.mem_cons.mp hd with h1 | h2
            · have hdd : d = d0 := congrArg Prod.fst h1
              subst hdd
              obtain ⟨m2, hm2, hk2, _⟩ := processDir_caches hpd
              exact ihA d m2 hm2 hk2
            · exact ihB d h2

/-- C10: each em[x] subscript in jpg_quality_reduce_report mutates the
shared cached index: after processing a subdirectory, its cached index
contains the keys jpg, jpeg and JPG, each mapped to the empty list when it
was previously absent; and after a successful report every scanned
subdirectory's cached index contains all three keys. -/
theorem jpg_report_inserts_jpg_keys :
    (∀ (w : JWorld) (st : FM) (d : Str) (res : Option Summary) (st2 : FM),
      processDir w st d = .ok (res, st2) →
      ∃ m2, lookupA st2.extdicts d = some m2 ∧ hasKeys3 m2
        ∧ ∀ k, (k = jpgKey ∨ k = jpegKey ∨ k = bigJpgKey) →
            lookupA (get_ext_map w.scan st d).1 k = none → lookupA m2 k = some [])
    ∧ (∀ (w : JWorld) (st : FM) (out : List Summary) (st2 : FM),
      jpg_quality_reduce_report w st = .ok (out, st2) →
      ∀ d, (d, true) ∈ w.subdirs →
        ∃ m2, lookupA st2.extdicts d = some m2 ∧ hasKeys3 m2) := by
  constructor
  · intro w st d res st2 h
    exact processDir_caches h
  · intro w st out st2 h d hd
    exact (jpgAux_ok_keys w w.subdirs st out st2 h).2 d hd

/-- Witness for C10 on Scenario D: after the report, the subdirectory's
cached index holds all three jpg-family keys. -/
theorem jpg_report_inserts_jpg_keys_witness :
    jpg_quality_reduce_report scenDWorld fm0 = .ok ([sD], stD1)
    ∧ ∃ m2, lookupA stD1.extdicts "/r/d".toList = some m2 ∧ hasKeys3 m2 :=
  ⟨rfl,
   jpg_report_inserts_jpg_keys.2 scenDWorld fm0 [sD] stD1 rfl
     "/r/d".toList (by decide)⟩
